import Mathlib

/-!
# IPv4 header and options codec

A shallow embedding of the Go package `ipv4` (`packet.go`, `options.go`) and
theorems about its encoder and decoder.

Conventions of the embedding.

* A Go `uint8`, `uint16` or `int` is a `Nat`; every place where the Go code
  truncates (a conversion to a narrower type, an addition or a subtraction on a
  fixed-width type) carries an explicit `% 2^w`.
* A Go `[]byte` is a `List Nat`.  The capacity of a slice is taken to be its
  length, so a slice expression `s[lo:hi]` is in range exactly when
  `lo ≤ hi ≤ len(s)`.
* Code that can panic returns a `Run`: `Run.ok` for a normal return,
  `Run.panic` for a run-time panic (index or slice out of range).  The
  options-parsing loop need not terminate, so it takes a fuel argument, one
  unit per turn, and returns `Run.outOfFuel` when the fuel is used up.
* A method with a pointer receiver that mutates the receiver returns the
  updated receiver next to its result.
* A Go `string` is handled as the list of its characters; a returned `error`
  is `none` of an `Option`, or the `Option String` next to the result.
-/

namespace ipv4

/-! ## Outcomes -/

/-- Outcome of a run of Go code: a normal return, a run-time panic (index or
slice out of range), or fuel exhausted in a loop that is bounded by fuel. -/
inductive Run (α : Type) where
  | ok : α → Run α
  | panic : Run α
  | outOfFuel : Run α
  deriving DecidableEq, Repr

/-- Sequencing of runs. -/
def Run.bind {α β : Type} (x : Run α) (f : α → Run β) : Run β :=
  match x with
  | Run.ok a => f a
  | Run.panic => Run.panic
  | Run.outOfFuel => Run.outOfFuel

instance : Monad Run where
  pure := Run.ok
  bind := Run.bind

/-! ## Go slice primitives -/

/-- Go index expression `s[i]`: panics when `i` is out of range. -/
def index (s : List Nat) (i : Nat) : Run Nat :=
  match s[i]? with
  | some v => Run.ok v
  | none => Run.panic

/-- Go slice expression `s[lo:hi]`: panics unless `lo ≤ hi ≤ len(s)`. -/
def slice (s : List Nat) (lo hi : Nat) : Run (List Nat) :=
  if lo ≤ hi ∧ hi ≤ s.length then Run.ok ((s.take hi).drop lo) else Run.panic

/-- Go slice expression `s[lo:]`. -/
def sliceFrom (s : List Nat) (lo : Nat) : Run (List Nat) := slice s lo s.length

/-- Go slice expression `s[:hi]`. -/
def sliceTo (s : List Nat) (hi : Nat) : Run (List Nat) := slice s 0 hi

/-- Go assignment `s[i] = v`: panics when `i` is out of range. -/
def setIndex (s : List Nat) (i v : Nat) : Run (List Nat) :=
  if i < s.length then Run.ok (s.set i v) else Run.panic

/-- Go `copy(buf[lo:hi], src)`: the slice expression is bounds-checked, then
`min (hi - lo) len(src)` bytes of `src` overwrite `buf` from offset `lo`. -/
def copyInto (buf : List Nat) (lo hi : Nat) (src : List Nat) : Run (List Nat) :=
  if lo ≤ hi ∧ hi ≤ buf.length then
    Run.ok (buf.take lo ++ src.take (hi - lo) ++ buf.drop (lo + min (hi - lo) src.length))
  else Run.panic

/-- Go `binary.BigEndian.PutUint16(buf[lo:lo+2], v)`: high byte first. -/
def putUint16 (buf : List Nat) (lo v : Nat) : Run (List Nat) :=
  if lo + 2 ≤ buf.length then
    Run.ok ((buf.set lo (v / 256 % 256)).set (lo + 1) (v % 256))
  else Run.panic

/-- Go `binary.BigEndian.Uint16(data[lo:lo+2])`: high byte first. -/
def getUint16 (data : List Nat) (lo : Nat) : Run Nat := do
  let b ← slice data lo (lo + 2)
  let b0 ← index b 0
  let b1 ← index b 1
  Run.ok (256 * b0 + b1)

/-! ## `packet.go`: bit-field accessors and addresses -/

/-- The packed version / header-length byte. -/
structure VersionIHL where
  Value : Nat
  deriving DecidableEq, Repr

/-- `Version()`: `v.Value >> 4`. -/
def VersionIHL.Version (v : VersionIHL) : Nat := v.Value >>> 4

/-- `IHL()`: `v.Value & 15`. -/
def VersionIHL.IHL (v : VersionIHL) : Nat := v.Value &&& 15

/-- The packed flags / fragment-offset halfword. -/
structure FlagsFrOffset where
  Value : Nat
  deriving DecidableEq, Repr

/-- `Flags()`: `f.Value >> 13`. -/
def FlagsFrOffset.Flags (f : FlagsFrOffset) : Nat := f.Value >>> 13

/-- `FragmentOffset()`: `f.Value & 0x1FFF`. -/
def FlagsFrOffset.FragmentOffset (f : FlagsFrOffset) : Nat := f.Value &&& 0x1FFF

/-- Go `type IPAddr [4]byte`. -/
structure IPAddr where
  b0 : Nat
  b1 : Nat
  b2 : Nat
  b3 : Nat
  deriving DecidableEq, Repr

/-- The zero value `IPAddr{}`. -/
def IPAddr.zero : IPAddr := ⟨0, 0, 0, 0⟩

/-- `Bytes()`: `i[:]`. -/
def IPAddr.Bytes (i : IPAddr) : List Nat := [i.b0, i.b1, i.b2, i.b3]

/-- Go `strings.Split(s, ".")` (standard library), on the characters of `s`:
the pieces between the dots, one more than there are dots. -/
def splitDot : List Char → List (List Char)
  | [] => [[]]
  | c :: cs =>
    if c = '.' then [] :: splitDot cs
    else
      match splitDot cs with
      | [] => [[c]]
      | piece :: pieces => (c :: piece) :: pieces

/-- The value of a string of decimal digits, most significant first, continuing
from `acc`; `none` when a character is not a digit. -/
def parseDigits : List Char → Nat → Option Nat
  | [], acc => some acc
  | c :: cs, acc =>
    if 48 ≤ c.toNat ∧ c.toNat ≤ 57 then parseDigits cs (10 * acc + (c.toNat - 48)) else none

/-- Go `strconv.Atoi` (standard library, 64-bit `int`): an optional sign and at
least one decimal digit, the value within the range of `int`; `none` stands
for the returned error. -/
def Atoi (s : List Char) : Option Int :=
  let signed : Bool × List Char :=
    match s with
    | '-' :: r => (true, r)
    | '+' :: r => (false, r)
    | _ => (false, s)
  if signed.2 = [] then none
  else
    match parseDigits signed.2 0 with
    | none => none
    | some n =>
      if signed.1 then (if n ≤ 9223372036854775808 then some (-(n : Int)) else none)
      else (if n < 9223372036854775808 then some (n : Int) else none)

/-- Go conversion `byte(a)` of an `int`: the low 8 bits. -/
def byteOfInt (a : Int) : Nat := (a % 256).toNat

/-- `IPFromString`: `none` stands for a returned error. -/
def IPFromString (addr : String) : Option IPAddr :=
  let splitted := splitDot addr.toList
  if splitted.length ≠ 4 then none
  else
    match splitted with
    | [s0, s1, s2, s3] =>
      match Atoi s0 with
      | none => none
      | some a =>
        match Atoi s1 with
        | none => none
        | some b =>
          match Atoi s2 with
          | none => none
          | some c =>
            match Atoi s3 with
            | none => none
            | some d => some ⟨byteOfInt a, byteOfInt b, byteOfInt c, byteOfInt d⟩
    | _ => none

/-- `IPFromBytes`: `none` stands for the returned error ("wrong ip length"). -/
def IPFromBytes (b : List Nat) : Option IPAddr :=
  match b with
  | [x0, x1, x2, x3] => some ⟨x0, x1, x2, x3⟩
  | _ => none

/-- `const ipHeaderLength = 20`. -/
def ipHeaderLength : Nat := 20

/-! ## `options.go` -/

/-- The option-type octet. -/
structure OptionType where
  Value : Nat
  deriving DecidableEq, Repr

/-- `Copied()`: `ot.Value >> 7`. -/
def OptionType.Copied (ot : OptionType) : Nat := ot.Value >>> 7

/-- `Class()`: `(ot.Value >> 5) & 3`. -/
def OptionType.Class (ot : OptionType) : Nat := (ot.Value >>> 5) &&& 3

/-- `Number()`: `ot.Value & 31`. -/
def OptionType.Number (ot : OptionType) : Nat := ot.Value &&& 31

/-- Go `type Option struct`, renamed because `Option` is taken; its field
`Type` is `Typ` here. -/
structure IPOption where
  Typ : OptionType
  Length : Nat
  Value : List Nat
  deriving DecidableEq, Repr

/-- The zero value `Option{}`. -/
def IPOption.zero : IPOption := ⟨⟨0⟩, 0, []⟩

/-- `Option.Marshal`.  `o.Length-2` is a `uint8` subtraction and wraps. -/
def IPOption.Marshal (o : IPOption) : Run (List Nat) :=
  if o.Typ.Number = 0 ∨ o.Typ.Number = 1 then
    Run.ok [o.Typ.Value]
  else do
    let v ← sliceTo o.Value ((o.Length + 256 - 2) % 256)
    Run.ok ([o.Typ.Value, o.Length] ++ v)

/-- `Option.Unmarshal`: returns the updated receiver. -/
def IPOption.Unmarshal (o : IPOption) (b : List Nat) : Run IPOption :=
  if b.length = 0 then
    Run.ok o
  else do
    let t ← index b 0
    let o := { o with Typ := ⟨t⟩ }
    if o.Typ.Number = 0 ∨ o.Typ.Number = 1 then
      Run.ok o
    else if b.length ≥ 2 then do
      let l ← index b 1
      let o := { o with Length := l }
      let v ← slice b 2 o.Length
      Run.ok { o with Value := v }
    else
      Run.ok o

/-! ## `packet.go`: the packet -/

/-- Go `type Packet struct`. -/
structure Packet where
  VerIHL : VersionIHL
  TOS : Nat
  Length : Nat
  ID : Nat
  FlFrOff : FlagsFrOffset
  TTL : Nat
  Protocol : Nat
  Checksum : Nat
  Src : IPAddr
  Dst : IPAddr
  Data : List Nat
  Options : List IPOption
  deriving DecidableEq, Repr

/-- The zero value `Packet{}`. -/
def Packet.zero : Packet :=
  ⟨⟨0⟩, 0, 0, 0, ⟨0⟩, 0, 0, 0, IPAddr.zero, IPAddr.zero, [], []⟩

/-- `New`: the `uint16` conversion of the length truncates. -/
def New (src dst : IPAddr) (data : List Nat) : Packet :=
  { VerIHL := ⟨0x45⟩
    TOS := 0
    Length := (ipHeaderLength + data.length) % 65536
    ID := 0
    FlFrOff := ⟨0⟩
    TTL := 64
    Protocol := 6
    Checksum := 0
    Src := src
    Dst := dst
    Data := data
    Options := [] }

/-- `WithOptions`: appends to the option list. -/
def Packet.WithOptions (p : Packet) (opts : List IPOption) : Packet :=
  { p with Options := p.Options ++ opts }

/-- The `range p.Options` loop of `marshalOptions`: append each encoding. -/
def marshalEach : List IPOption → List Nat → Run (List Nat)
  | [], buf => Run.ok buf
  | opt :: rest, buf => do
    let e ← opt.Marshal
    marshalEach rest (buf ++ e)

/-- The loop `for len(buf)%4 != 3` of `marshalOptions`, appending the encoding
of a no-operation option on each turn. -/
def padLoop (buf : List Nat) : Run (List Nat) :=
  if buf.length % 4 ≠ 3 then
    match h : (IPOption.mk ⟨0b00000001⟩ 0 []).Marshal with
    | Run.ok e => padLoop (buf ++ e)
    | Run.panic => Run.panic
    | Run.outOfFuel => Run.outOfFuel
  else Run.ok buf
termination_by 3 - buf.length % 4
decreasing_by
  have he : e = [1] := by
    have h1 : (IPOption.mk ⟨0b00000001⟩ 0 []).Marshal = Run.ok [1] := by decide
    rw [h1] at h
    exact (Run.ok.inj h).symm
  subst he
  simp only [List.length_append, List.length_singleton]
  omega

/-- `marshalOptions`: returns the options region and the updated receiver.
The `uint8` conversion and the `+=` on `VerIHL.Value` truncate. -/
def Packet.marshalOptions (p : Packet) : Run (List Nat × Packet) := do
  let buf ← marshalEach p.Options []
  let buf ←
    if buf.length % 4 ≠ 0 then do
      let buf ← padLoop buf
      let e ← (IPOption.mk ⟨0b00000000⟩ 0 []).Marshal
      Run.ok (buf ++ e)
    else Run.ok buf
  let p := { p with VerIHL := ⟨(p.VerIHL.Value + (buf.length / 4) % 256) % 256⟩ }
  Run.ok (buf, p)

/-- The first loop of `CalculateChecksum`, `for i := 0; i < -1; i += 2`, with
`sum` a `uint32`. -/
def checksumLoop (data : List Nat) (i sum : Nat) : Run Nat :=
  if h : (i : Int) < -1 then do
    let hi ← index data i
    let lo ← index data (i + 1)
    checksumLoop data (i + 2) ((sum + ((hi <<< 8) ||| lo)) % 4294967296)
  else Run.ok sum
termination_by 0
decreasing_by omega

/-- The last loop of `CalculateChecksum`, `for (sum >> 16) > 0`. -/
def foldCarries (sum : Nat) : Nat :=
  if h : sum >>> 16 > 0 then
    foldCarries (((sum &&& 0xffff) + (sum >>> 16)) % 4294967296)
  else sum
termination_by sum
decreasing_by
  rw [Nat.shiftRight_eq_div_pow] at h
  have h1 : sum &&& 0xffff = sum % 2 ^ 16 := Nat.and_pow_two_sub_one_eq_mod sum 16
  rw [Nat.shiftRight_eq_div_pow, h1]
  have h2 := Nat.mod_le (sum % 2 ^ 16 + sum / 2 ^ 16) 4294967296
  omega

/-- `CalculateChecksum`: the receiver is not used. -/
def Packet.CalculateChecksum (_p : Packet) (data : List Nat) : Run Nat := do
  let sum := 0
  let size := 20
  let sum ← checksumLoop data 0 sum
  let sum ←
    if size &&& 1 ≠ 0 then do
      let last ← index data (size - 1)
      Run.ok ((sum + (last <<< 8)) % 4294967296)
    else Run.ok sum
  let sum := foldCarries sum
  Run.ok (65535 - sum % 65536)

/-- `Marshal`: returns the encoded bytes and the updated receiver. -/
def Packet.Marshal (p : Packet) : Run (List Nat × Packet) := do
  let (options, p) ← p.marshalOptions
  let p := { p with Length := (p.Length + options.length % 65536) % 65536 }
  let buf := List.replicate (p.Data.length + ipHeaderLength + options.length) 0
  let buf ← setIndex buf 0 p.VerIHL.Value
  let buf ← setIndex buf 1 p.TOS
  let buf ← putUint16 buf 2 p.Length
  let buf ← putUint16 buf 4 p.ID
  let buf ← putUint16 buf 6 p.FlFrOff.Value
  let buf ← setIndex buf 8 p.TTL
  let buf ← setIndex buf 9 p.Protocol
  let buf ← copyInto buf 12 16 p.Src.Bytes
  let buf ← copyInto buf 16 20 p.Dst.Bytes
  let buf ← copyInto buf 20 (20 + options.length) options
  let buf ← copyInto buf (20 + options.length) buf.length p.Data
  let hdr ← sliceTo buf (20 + options.length)
  let ck ← p.CalculateChecksum hdr
  let p := { p with Checksum := ck }
  let buf ← putUint16 buf 10 p.Checksum
  Run.ok (buf, p)

/-- One turn of the loop `for optionsNotEmpty` of `unmarshalOptions`: returns
the updated receiver, the new `pointer` and the new `optionsNotEmpty`. -/
def Packet.unmarshalOptionsStep (p : Packet) (data : List Nat) (pointer : Nat) :
    Run (Packet × Nat × Bool) := do
  let optionsNotEmpty := true
  let opt := IPOption.zero
  let t ← index data pointer
  if t &&& 31 = 0 ∨ t &&& 31 = 1 then do
    let b ← slice data pointer (pointer + 1)
    let opt ← opt.Unmarshal b
    let p := { p with Options := p.Options ++ [opt] }
    let pointer := pointer + 1
    let optionsNotEmpty := if opt.Typ.Number = 0 then false else optionsNotEmpty
    let optionsNotEmpty :=
      if pointer = (p.VerIHL.IHL * 4) % 256 then false else optionsNotEmpty
    Run.ok (p, pointer, optionsNotEmpty)
  else do
    let length ← index data (pointer + 1)
    let b ← slice data pointer (pointer + length)
    let opt ← opt.Unmarshal b
    let p := { p with Options := p.Options ++ [opt] }
    let pointer := pointer + length
    let optionsNotEmpty :=
      if pointer = (p.VerIHL.IHL * 4) % 256 then false else optionsNotEmpty
    Run.ok (p, pointer, optionsNotEmpty)

/-- The loop `for optionsNotEmpty` of `unmarshalOptions`; one unit of fuel per
turn. -/
def Packet.unmarshalOptionsLoop (data : List Nat) : Nat → Packet → Nat → Run Packet
  | 0, _, _ => Run.outOfFuel
  | fuel + 1, p, pointer =>
    match p.unmarshalOptionsStep data pointer with
    | Run.ok (p, pointer, true) => Packet.unmarshalOptionsLoop data fuel p pointer
    | Run.ok (p, _, false) => Run.ok p
    | Run.panic => Run.panic
    | Run.outOfFuel => Run.outOfFuel

/-- `unmarshalOptions`: `IHL()*4` is a `uint8` product. -/
def Packet.unmarshalOptions (fuel : Nat) (p : Packet) (data : List Nat) : Run Packet :=
  if (p.VerIHL.IHL * 4) % 256 = ipHeaderLength then
    Run.ok p
  else
    Packet.unmarshalOptionsLoop data fuel p 20

/-- `Unmarshal`: returns the updated receiver.  The error of `IPFromBytes` is
discarded by the caller, which then stores the zero address. -/
def Packet.Unmarshal (fuel : Nat) (p : Packet) (data : List Nat) : Run Packet :=
  if data.length < ipHeaderLength then
    Run.ok p
  else do
    let v ← index data 0
    let p := { p with VerIHL := ⟨v⟩ }
    let tos ← index data 1
    let p := { p with TOS := tos }
    let len ← getUint16 data 2
    let p := { p with Length := len }
    let id ← getUint16 data 4
    let p := { p with ID := id }
    let fl ← getUint16 data 6
    let p := { p with FlFrOff := ⟨fl⟩ }
    let ttl ← index data 8
    let p := { p with TTL := ttl }
    let proto ← index data 9
    let p := { p with Protocol := proto }
    let ck ← getUint16 data 10
    let p := { p with Checksum := ck }
    let s ← slice data 12 16
    let p := { p with Src := (IPFromBytes s).getD IPAddr.zero }
    let d ← slice data 16 20
    let p := { p with Dst := (IPFromBytes d).getD IPAddr.zero }
    let p ← p.unmarshalOptions fuel data
    let rest ← sliceFrom data ((p.VerIHL.IHL * 4) % 256)
    Run.ok { p with Data := rest }

/-! ## `socket.go` -/

/-- The outcome of one call of `ethSock.ReadFrame()` (package `ethernet`, not
part of this repository): an error, or a frame with its `EtherType` and
`Payload`. -/
inductive FrameRead where
  | error (err : String)
  | frame (EtherType : Nat) (Payload : List Nat)
  deriving DecidableEq, Repr

/-- `IpSocket.ReadPacket`, over the outcomes of the successive `ReadFrame`
calls; `etherTypeIPv4` is the constant `ethernet.EtherTypeIPv4`.  Returns the
pair `(*Packet, error)` with `none` for `nil`.  When no further frame arrives
the call blocks, which is `Run.outOfFuel`. -/
def ReadPacket (etherTypeIPv4 fuel : Nat) : List FrameRead → Run (Option Packet × Option String)
  | [] => Run.outOfFuel
  | FrameRead.error err :: _ => Run.ok (none, some err)
  | FrameRead.frame etherType payload :: rest =>
    if etherType ≠ etherTypeIPv4 then
      ReadPacket etherTypeIPv4 fuel rest
    else do
      let p ← Packet.Unmarshal fuel Packet.zero payload
      Run.ok (some p, none)

/-! ## Auxiliary definitions used in the statements -/

/-- What the decoder recovers from the encoding of `o`: the type octet alone
for a single-octet option (number 0 or 1), otherwise the type, the length and
the first `Length - 2` bytes of the value. -/
def IPOption.decoded (o : IPOption) : IPOption :=
  if o.Typ.Number = 0 ∨ o.Typ.Number = 1 then ⟨o.Typ, 0, []⟩
  else ⟨o.Typ, o.Length, o.Value.take (o.Length - 2)⟩

/-- The options up to and including the first end-of-list option (number 0). -/
def upToEOL : List IPOption → List IPOption
  | [] => []
  | o :: rest => if o.Typ.Number = 0 then [o] else o :: upToEOL rest

/-- An option in the form in which the decoder produces it: a single-octet
option has `Length` 0 and an empty `Value`; any other option has `Length ≥ 2`
and exactly `Length - 2` bytes of `Value`. -/
def IPOption.Canonical (o : IPOption) : Prop :=
  if o.Typ.Number = 0 ∨ o.Typ.Number = 1 then o.Length = 0 ∧ o.Value = []
  else 2 ≤ o.Length ∧ o.Value.length = o.Length - 2

instance (o : IPOption) : Decidable o.Canonical := by
  unfold IPOption.Canonical
  exact inferInstance

/-- The options that the padding of `marshalOptions` puts on the wire after an
unpadded region of `n` bytes: nothing when `n` is a multiple of 4, otherwise
`3 - n % 4` no-operation options and one end-of-list option. -/
def paddingOptions (n : Nat) : List IPOption :=
  if n % 4 = 0 then []
  else List.replicate (3 - n % 4) (IPOption.mk ⟨1⟩ 0 []) ++ [IPOption.mk ⟨0⟩ 0 []]

/-- The spec's sum of the 16-bit big-endian words of a region, before carry
folding; an odd final byte is the high byte of a zero-padded word. -/
def wordSum : List Nat → Nat
  | [] => 0
  | [a] => 256 * a
  | a :: b :: rest => 256 * a + b + wordSum rest

/-- The spec's end-around carry: fold any carry out of bit 16 back into the low
16 bits until no carry remains. -/
def endAroundCarry (s : Nat) : Nat :=
  if h : 65536 ≤ s then endAroundCarry (s % 65536 + s / 65536) else s
termination_by s
decreasing_by omega

/-- The spec's one's-complement sum of a region (16-bit big-endian words,
carries folded back in). -/
def onesComplementSum (region : List Nat) : Nat := endAroundCarry (wordSum region)

/-- The address 1.2.3.4 of the package tests. -/
def testAddr : IPAddr := ⟨1, 2, 3, 4⟩

/-- The no-operation option of the package tests. -/
def noOperation : IPOption := ⟨⟨1⟩, 0, []⟩

/-- The end-of-list option. -/
def endOfList : IPOption := ⟨⟨0⟩, 0, []⟩

/-- The receiver of `Unmarshal` after the assignments of the fixed fields from
a buffer `d` of at least 20 bytes, before the options are parsed. -/
def Packet.withFixedFields (q : Packet) (d : List Nat) : Packet :=
  { VerIHL := ⟨d.getD 0 0⟩
    TOS := d.getD 1 0
    Length := 256 * d.getD 2 0 + d.getD 3 0
    ID := 256 * d.getD 4 0 + d.getD 5 0
    FlFrOff := ⟨256 * d.getD 6 0 + d.getD 7 0⟩
    TTL := d.getD 8 0
    Protocol := d.getD 9 0
    Checksum := 256 * d.getD 10 0 + d.getD 11 0
    Src := ⟨d.getD 12 0, d.getD 13 0, d.getD 14 0, d.getD 15 0⟩
    Dst := ⟨d.getD 16 0, d.getD 17 0, d.getD 18 0, d.getD 19 0⟩
    Data := q.Data
    Options := q.Options }

/-- The receiver and the pointer that the options loop has reached after `n`
turns, each of which left `optionsNotEmpty` true; `none` when one of these
turns panics or ends the loop. -/
def stateAfter (data : List Nat) : Nat → Packet → Nat → Option (Packet × Nat)
  | 0, p, pointer => some (p, pointer)
  | n + 1, p, pointer =>
    match p.unmarshalOptionsStep data pointer with
    | Run.ok (p1, pointer1, true) => stateAfter data n p1 pointer1
    | _ => none

/-! # Theorems -/

/-! ## Sequencing -/

@[simp] theorem Run.bind_def {α β : Type} (x : Run α) (f : α → Run β) :
    (x >>= f) = Run.bind x f := rfl

@[simp] theorem Run.pure_def {α : Type} (a : α) : (pure a : Run α) = Run.ok a := rfl

@[simp] theorem Run.ok_bind {α β : Type} (a : α) (f : α → Run β) :
    Run.bind (Run.ok a) f = f a := rfl

@[simp] theorem Run.panic_bind {α β : Type} (f : α → Run β) :
    Run.bind (Run.panic : Run α) f = Run.panic := rfl

@[simp] theorem Run.outOfFuel_bind {α β : Type} (f : α → Run β) :
    Run.bind (Run.outOfFuel : Run α) f = Run.outOfFuel := rfl

theorem Run.bind_eq_ok {α β : Type} {x : Run α} {f : α → Run β} {b : β}
    (h : Run.bind x f = Run.ok b) : ∃ a, x = Run.ok a ∧ f a = Run.ok b := by
  cases x with
  | ok a => exact ⟨a, rfl, h⟩
  | panic => cases h
  | outOfFuel => cases h

/-! ## Slice primitives -/

theorem index_lt {s : List Nat} {i : Nat} (h : i < s.length) :
    index s i = Run.ok (s.get ⟨i, h⟩) := by
  simp [index, List.getElem?_eq_getElem h]

theorem index_ge {s : List Nat} {i : Nat} (h : s.length ≤ i) : index s i = Run.panic := by
  simp [index, List.getElem?_eq_none h]

theorem index_append_right (pre post : List Nat) (x : Nat) :
    index (pre ++ x :: post) pre.length = Run.ok x := by
  have h : (pre ++ x :: post)[pre.length]? = some x := by
    rw [List.getElem?_append_right (Nat.le_refl _)]
    simp
  simp [index, h]

theorem slice_append (pre mid post : List Nat) :
    slice (pre ++ mid ++ post) pre.length (pre.length + mid.length) = Run.ok mid := by
  have h : List.drop pre.length (List.take (pre.length + mid.length) (pre ++ mid ++ post))
      = mid := by
    rw [List.append_assoc, List.take_append, List.drop_left, List.take_left]
  simp only [slice, List.length_append]
  rw [if_pos (by omega), h]

theorem sliceTo_ok {s : List Nat} {n : Nat} (h : n ≤ s.length) :
    sliceTo s n = Run.ok (s.take n) := by
  simp [sliceTo, slice, h]

theorem sliceTo_eq_ok {s v : List Nat} {n : Nat} (h : sliceTo s n = Run.ok v) :
    n ≤ s.length ∧ v = s.take n := by
  unfold sliceTo slice at h
  split at h
  · rename_i hc
    simp at h
    exact ⟨hc.2, h.symm⟩
  · cases h

/-! ## Option encoding -/

theorem nop_Marshal : (IPOption.mk ⟨1⟩ 0 []).Marshal = Run.ok [1] := by decide

theorem eool_Marshal : (IPOption.mk ⟨0⟩ 0 []).Marshal = Run.ok [0] := by decide

theorem padLoop_eq (buf : List Nat) :
    padLoop buf = Run.ok (buf ++ List.replicate (3 - buf.length % 4) 1) := by
  generalize h : 3 - buf.length % 4 = n
  induction n generalizing buf with
  | zero =>
    rw [padLoop]
    have : buf.length % 4 = 3 := by omega
    simp [this]
  | succ n ih =>
    rw [padLoop]
    have h3 : buf.length % 4 ≠ 3 := by omega
    simp only [h3, ne_eq, not_false_eq_true, if_true]
    split
    · rename_i e he
      have he1 : e = [1] := by
        rw [nop_Marshal] at he
        exact (Run.ok.inj he).symm
      subst he1
      have hn : 3 - (buf ++ [1]).length % 4 = n := by
        simp only [List.length_append, List.length_singleton]
        omega
      rw [ih _ hn, List.append_assoc]
      rfl
    · rename_i he
      rw [nop_Marshal] at he
      cases he
    · rename_i he
      rw [nop_Marshal] at he
      cases he

theorem marshalEach_ok {opts : List IPOption} {encs : List (List Nat)}
    (h : List.Forall₂ (fun o e => o.Marshal = Run.ok e) opts encs) (buf : List Nat) :
    marshalEach opts buf = Run.ok (buf ++ encs.flatten) := by
  induction h generalizing buf with
  | nil => simp [marshalEach]
  | cons ho _ ih => simp [marshalEach, ho, ih]

theorem marshalEach_eq_ok {opts : List IPOption} {buf r : List Nat}
    (h : marshalEach opts buf = Run.ok r) :
    ∃ encs, List.Forall₂ (fun o e => o.Marshal = Run.ok e) opts encs ∧
      r = buf ++ encs.flatten := by
  induction opts generalizing buf with
  | nil =>
    simp [marshalEach] at h
    exact ⟨[], List.Forall₂.nil, by simp [h]⟩
  | cons o rest ih =>
    simp only [marshalEach, Run.bind_def] at h
    obtain ⟨e, he, h2⟩ := Run.bind_eq_ok h
    obtain ⟨encs, hf, hr⟩ := ih h2
    exact ⟨e :: encs, List.Forall₂.cons he hf, by simp [hr]⟩

/-- The padding that `marshalOptions` appends to an unpadded region `E`. -/
theorem marshalOptions_of_marshalEach {p : Packet} {E : List Nat}
    (h : marshalEach p.Options [] = Run.ok E) :
    p.marshalOptions =
      Run.ok (if E.length % 4 = 0 then E else E ++ List.replicate (3 - E.length % 4) 1 ++ [0],
        { p with VerIHL := ⟨(p.VerIHL.Value +
            ((if E.length % 4 = 0 then E
              else E ++ List.replicate (3 - E.length % 4) 1 ++ [0]).length / 4) % 256) % 256⟩ }) := by
  unfold Packet.marshalOptions
  by_cases h4 : E.length % 4 = 0
  · simp [h, h4]
  · simp [h, h4, padLoop_eq, eool_Marshal, Nat.add_assoc]

/-! ## The encoder -/

theorem copyInto_append (pre mid post src : List Nat) (h : src.length = mid.length) :
    copyInto (pre ++ mid ++ post) pre.length (pre.length + mid.length) src =
      Run.ok (pre ++ src ++ post) := by
  have h1 : List.take pre.length (pre ++ mid ++ post) = pre := by
    rw [List.append_assoc, List.take_left]
  have h2 : List.drop (pre.length + mid.length) (pre ++ mid ++ post) = post := by
    rw [← List.length_append, List.drop_left]
  simp only [copyInto, List.length_append]
  rw [if_pos (by omega)]
  simp only [Nat.add_sub_cancel_left, h, Nat.min_self]
  rw [h1, h2, ← h, List.take_length]

theorem checksumLoop_zero (data : List Nat) (sum : Nat) :
    checksumLoop data 0 sum = Run.ok sum := by
  rw [checksumLoop]
  simp

theorem foldCarries_zero : foldCarries 0 = 0 := by
  rw [foldCarries]
  simp

theorem CalculateChecksum_eq (p : Packet) (data : List Nat) :
    p.CalculateChecksum data = Run.ok 65535 := by
  simp [Packet.CalculateChecksum, checksumLoop_zero, foldCarries_zero]

theorem header_write {β : Type} (a0 a1 l d f t pr : Nat) (s ds : IPAddr)
    (options data : List Nat) (k : List Nat → Run β) :
    (do
      let buf := List.replicate (data.length + ipHeaderLength + options.length) 0
      let buf ← setIndex buf 0 a0
      let buf ← setIndex buf 1 a1
      let buf ← putUint16 buf 2 l
      let buf ← putUint16 buf 4 d
      let buf ← putUint16 buf 6 f
      let buf ← setIndex buf 8 t
      let buf ← setIndex buf 9 pr
      let buf ← copyInto buf 12 16 s.Bytes
      let buf ← copyInto buf 16 20 ds.Bytes
      k buf) =
    k ([a0, a1, l / 256 % 256, l % 256, d / 256 % 256, d % 256, f / 256 % 256, f % 256,
      t, pr, 0, 0, s.b0, s.b1, s.b2, s.b3, ds.b0, ds.b1, ds.b2, ds.b3] ++
      List.replicate options.length 0 ++ List.replicate data.length 0) := by
  have e : data.length + ipHeaderLength + options.length
      = 20 + (options.length + data.length) := by
    simp only [ipHeaderLength]; omega
  rw [e, List.replicate_add, List.replicate_add]
  generalize List.replicate options.length 0 = zo
  generalize List.replicate data.length 0 = zd
  simp [List.replicate, setIndex, putUint16, copyInto, IPAddr.Bytes]

theorem Marshal_of_marshalOptions {p p1 : Packet} {options : List Nat}
    (h : p.marshalOptions = Run.ok (options, p1)) :
    p.Marshal = Run.ok
      ([p1.VerIHL.Value, p1.TOS,
        (p1.Length + options.length % 65536) % 65536 / 256 % 256,
        (p1.Length + options.length % 65536) % 65536 % 256,
        p1.ID / 256 % 256, p1.ID % 256,
        p1.FlFrOff.Value / 256 % 256, p1.FlFrOff.Value % 256,
        p1.TTL, p1.Protocol, 255, 255,
        p1.Src.b0, p1.Src.b1, p1.Src.b2, p1.Src.b3,
        p1.Dst.b0, p1.Dst.b1, p1.Dst.b2, p1.Dst.b3] ++ options ++ p1.Data,
       { p1 with Length := (p1.Length + options.length % 65536) % 65536, Checksum := 65535 }) := by
  unfold Packet.Marshal
  simp only [Run.bind_def, h, Run.ok_bind]
  have hw := fun k => header_write (β := List Nat × Packet) p1.VerIHL.Value p1.TOS
    ((p1.Length + options.length % 65536) % 65536) p1.ID p1.FlFrOff.Value p1.TTL
    p1.Protocol p1.Src p1.Dst options p1.Data k
  simp only [Run.bind_def] at hw
  rw [hw]
  have c1 := copyInto_append
    [p1.VerIHL.Value, p1.TOS,
        (p1.Length + options.length % 65536) % 65536 / 256 % 256,
        (p1.Length + options.length % 65536) % 65536 % 256,
        p1.ID / 256 % 256, p1.ID % 256,
        p1.FlFrOff.Value / 256 % 256, p1.FlFrOff.Value % 256,
        p1.TTL, p1.Protocol, 0, 0,
        p1.Src.b0, p1.Src.b1, p1.Src.b2, p1.Src.b3,
        p1.Dst.b0, p1.Dst.b1, p1.Dst.b2, p1.Dst.b3]
    (List.replicate options.length 0) (List.replicate p1.Data.length 0) options (by simp)
  simp only [List.length_replicate, List.length_cons, List.length_nil, Nat.zero_add,
    Nat.reduceAdd] at c1
  rw [c1]
  simp only [Run.ok_bind]
  have c2 := copyInto_append
    ([p1.VerIHL.Value, p1.TOS,
        (p1.Length + options.length % 65536) % 65536 / 256 % 256,
        (p1.Length + options.length % 65536) % 65536 % 256,
        p1.ID / 256 % 256, p1.ID % 256,
        p1.FlFrOff.Value / 256 % 256, p1.FlFrOff.Value % 256,
        p1.TTL, p1.Protocol, 0, 0,
        p1.Src.b0, p1.Src.b1, p1.Src.b2, p1.Src.b3,
        p1.Dst.b0, p1.Dst.b1, p1.Dst.b2, p1.Dst.b3] ++ options)
    (List.replicate p1.Data.length 0) [] p1.Data (by simp)
  simp only [List.length_replicate, List.length_cons, List.length_nil, Nat.zero_add,
    Nat.reduceAdd, List.length_append, List.append_nil] at c2
  simp only [List.length_replicate, List.length_cons, List.length_nil, Nat.zero_add,
    Nat.reduceAdd, List.length_append]
  rw [c2]
  simp only [Run.ok_bind, CalculateChecksum_eq]
  rw [sliceTo_ok (by simp only [List.length_append, List.length_cons, List.length_nil]; omega)]
  simp [putUint16]

/-! ## The decoder -/

theorem exists_header {data : List Nat} (h : 20 ≤ data.length) :
    ∃ a0 a1 a2 a3 a4 a5 a6 a7 a8 a9 a10 a11 a12 a13 a14 a15 a16 a17 a18 a19 rest,
      data = a0 :: a1 :: a2 :: a3 :: a4 :: a5 :: a6 :: a7 :: a8 :: a9 :: a10 :: a11 :: a12 ::
        a13 :: a14 :: a15 :: a16 :: a17 :: a18 :: a19 :: rest := by
  rcases data with _ | ⟨a0, _ | ⟨a1, _ | ⟨a2, _ | ⟨a3, _ | ⟨a4, _ | ⟨a5, _ | ⟨a6, _ | ⟨a7,
    _ | ⟨a8, _ | ⟨a9, _ | ⟨a10, _ | ⟨a11, _ | ⟨a12, _ | ⟨a13, _ | ⟨a14, _ | ⟨a15, _ | ⟨a16,
    _ | ⟨a17, _ | ⟨a18, _ | ⟨a19, rest⟩⟩⟩⟩⟩⟩⟩⟩⟩⟩⟩⟩⟩⟩⟩⟩⟩⟩⟩⟩
  all_goals first
    | exact ⟨_, _, _, _, _, _, _, _, _, _, _, _, _, _, _, _, _, _, _, _, _, rfl⟩
    | (simp at h)

theorem Unmarshal_header (fuel : Nat) (p : Packet)
    (a0 a1 a2 a3 a4 a5 a6 a7 a8 a9 a10 a11 a12 a13 a14 a15 a16 a17 a18 a19 : Nat)
    (rest : List Nat) :
    Packet.Unmarshal fuel p (a0 :: a1 :: a2 :: a3 :: a4 :: a5 :: a6 :: a7 :: a8 :: a9 :: a10 ::
        a11 :: a12 :: a13 :: a14 :: a15 :: a16 :: a17 :: a18 :: a19 :: rest) =
      Run.bind
        (Packet.unmarshalOptions fuel
          { VerIHL := ⟨a0⟩, TOS := a1, Length := 256 * a2 + a3, ID := 256 * a4 + a5,
            FlFrOff := ⟨256 * a6 + a7⟩, TTL := a8, Protocol := a9, Checksum := 256 * a10 + a11,
            Src := ⟨a12, a13, a14, a15⟩, Dst := ⟨a16, a17, a18, a19⟩,
            Data := p.Data, Options := p.Options }
          (a0 :: a1 :: a2 :: a3 :: a4 :: a5 :: a6 :: a7 :: a8 :: a9 :: a10 ::
            a11 :: a12 :: a13 :: a14 :: a15 :: a16 :: a17 :: a18 :: a19 :: rest))
        (fun q => Run.bind
          (sliceFrom (a0 :: a1 :: a2 :: a3 :: a4 :: a5 :: a6 :: a7 :: a8 :: a9 :: a10 ::
            a11 :: a12 :: a13 :: a14 :: a15 :: a16 :: a17 :: a18 :: a19 :: rest)
            ((q.VerIHL.IHL * 4) % 256))
          (fun r => Run.ok { q with Data := r })) := by
  simp [Packet.Unmarshal, index, getUint16, slice, IPFromBytes, ipHeaderLength]

theorem Marshal_shape {o : IPOption} {e : List Nat} (hm : o.Marshal = Run.ok e)
    (hl : o.Length < 256) (he : e.length ≤ 255) :
    ((o.Typ.Number = 0 ∨ o.Typ.Number = 1) ∧ e = [o.Typ.Value]) ∨
    (¬(o.Typ.Number = 0 ∨ o.Typ.Number = 1) ∧ 2 ≤ o.Length ∧ o.Length - 2 ≤ o.Value.length ∧
      e = o.Typ.Value :: o.Length :: o.Value.take (o.Length - 2)) := by
  by_cases hs : o.Typ.Number = 0 ∨ o.Typ.Number = 1
  · left
    simp only [IPOption.Marshal, hs, if_true] at hm
    exact ⟨hs, (Run.ok.inj hm).symm⟩
  · right
    simp only [IPOption.Marshal, hs, if_false, Run.bind_def] at hm
    obtain ⟨v, hv, h2⟩ := Run.bind_eq_ok hm
    obtain ⟨hn, rfl⟩ := sliceTo_eq_ok hv
    have h3 := (Run.ok.inj h2).symm
    subst h3
    simp only [List.cons_append, List.nil_append, List.length_cons, List.length_take] at he
    have h2le : 2 ≤ o.Length := by omega
    have hn2 : (o.Length + 256 - 2) % 256 = o.Length - 2 := by omega
    rw [hn2] at hn ⊢
    exact ⟨hs, h2le, hn, rfl⟩

theorem unmarshalOptionsStep_enc (p : Packet) {o : IPOption} {e : List Nat} (pre post : List Nat)
    (hm : o.Marshal = Run.ok e) (hl : o.Length < 256) (he : e.length ≤ 255) :
    p.unmarshalOptionsStep (pre ++ e ++ post) pre.length =
      Run.ok ({ p with Options := p.Options ++ [o.decoded] }, pre.length + e.length,
        decide (o.Typ.Number ≠ 0 ∧ pre.length + e.length ≠ (p.VerIHL.IHL * 4) % 256)) := by
  rcases Marshal_shape hm hl he with ⟨hs, rfl⟩ | ⟨hs, h2, hv, rfl⟩
  · have hi : index (pre ++ [o.Typ.Value] ++ post) pre.length = Run.ok o.Typ.Value := by
      simpa using index_append_right pre post o.Typ.Value
    have hsl := slice_append pre [o.Typ.Value] post
    simp only [List.length_singleton] at hsl
    have hs2 : o.Typ.Value &&& 31 = 0 ∨ o.Typ.Value &&& 31 = 1 := hs
    simp only [Packet.unmarshalOptionsStep, Run.bind_def, hi, Run.ok_bind, hs2, if_true, hsl]
    have hu : IPOption.zero.Unmarshal [o.Typ.Value] = Run.ok o.decoded := by
      simp [IPOption.Unmarshal, index, IPOption.decoded, hs, OptionType.Number, hs2,
        IPOption.zero]
    simp only [hu, Run.ok_bind]
    have hd : o.decoded.Typ.Number = o.Typ.Number := by
      simp [IPOption.decoded, hs]
    rw [hd]
    by_cases h0 : o.Typ.Number = 0
    · simp [h0]
    · by_cases h1 : pre.length + 1 = (p.VerIHL.IHL * 4) % 256
      · simp [h0, h1]
      · simp [h0, h1]
  · have hne : ¬(o.Typ.Value &&& 31 = 0 ∨ o.Typ.Value &&& 31 = 1) := hs
    have hi : index (pre ++ o.Typ.Value :: o.Length :: List.take (o.Length - 2) o.Value ++ post)
        pre.length = Run.ok o.Typ.Value := by
      simpa using index_append_right pre
        (o.Length :: List.take (o.Length - 2) o.Value ++ post) o.Typ.Value
    have hi1 : index (pre ++ o.Typ.Value :: o.Length :: List.take (o.Length - 2) o.Value ++ post)
        (pre.length + 1) = Run.ok o.Length := by
      simpa using index_append_right (pre ++ [o.Typ.Value])
        (List.take (o.Length - 2) o.Value ++ post) o.Length
    have hlen : (o.Typ.Value :: o.Length :: List.take (o.Length - 2) o.Value).length
        = o.Length := by
      simp only [List.length_cons, List.length_take]
      omega
    have hsl := slice_append pre (o.Typ.Value :: o.Length :: List.take (o.Length - 2) o.Value) post
    rw [hlen] at hsl
    have hu : IPOption.zero.Unmarshal
        (o.Typ.Value :: o.Length :: List.take (o.Length - 2) o.Value) = Run.ok o.decoded := by
      have hs3 : slice (o.Typ.Value :: o.Length :: List.take (o.Length - 2) o.Value) 2 o.Length
          = Run.ok (List.take (o.Length - 2) o.Value) := by
        have := slice_append [o.Typ.Value, o.Length] (List.take (o.Length - 2) o.Value) []
        simp only [List.append_nil, List.length_cons, List.length_nil, List.length_take] at this
        have e2 : 0 + 1 + 1 + min (o.Length - 2) o.Value.length = o.Length := by omega
        rw [e2] at this
        simpa using this
      simp [IPOption.Unmarshal, index, IPOption.decoded, hs, OptionType.Number, hne,
        IPOption.zero, hs3]
    simp only [Packet.unmarshalOptionsStep, Run.bind_def, hi, Run.ok_bind, hne, if_false, hi1,
      hsl, hu, hlen]
    have h0 : o.Typ.Number ≠ 0 := fun h => hs (Or.inl h)
    by_cases h1 : pre.length + o.Length = (p.VerIHL.IHL * 4) % 256
    · simp [h0, h1]
    · simp [h0, h1]

theorem Marshal_length_pos {o : IPOption} {e : List Nat} (hm : o.Marshal = Run.ok e) :
    0 < e.length := by
  by_cases hs : o.Typ.Number = 0 ∨ o.Typ.Number = 1
  · simp only [IPOption.Marshal, hs, if_true] at hm
    rw [← Run.ok.inj hm]
    simp
  · simp only [IPOption.Marshal, hs, if_false, Run.bind_def] at hm
    obtain ⟨v, _, h2⟩ := Run.bind_eq_ok hm
    rw [← Run.ok.inj h2]
    simp

theorem length_le_flatten {encs : List (List Nat)} {e : List Nat} (h : e ∈ encs) :
    e.length ≤ encs.flatten.length := by
  induction encs with
  | nil => cases h
  | cons x xs ih =>
    simp only [List.flatten_cons, List.length_append]
    rcases List.mem_cons.mp h with rfl | h'
    · omega
    · have := ih h'
      omega

theorem unmarshalOptionsLoop_enc {os : List IPOption} {encs : List (List Nat)}
    (h : List.Forall₂ (fun o e => o.Marshal = Run.ok e) os encs) :
    os ≠ [] → (∀ o ∈ os, o.Length < 256) → (∀ e ∈ encs, e.length ≤ 255) →
    ∀ (p : Packet) (pre post : List Nat) (fuel : Nat), os.length ≤ fuel →
      (p.VerIHL.IHL * 4) % 256 = pre.length + encs.flatten.length →
      Packet.unmarshalOptionsLoop (pre ++ encs.flatten ++ post) fuel p pre.length =
        Run.ok { p with Options := p.Options ++ (upToEOL os).map IPOption.decoded } := by
  induction h with
  | nil => intro hne; exact absurd rfl hne
  | @cons o e os' encs' ho hrest ih =>
    intro _ hl he p pre post fuel hfuel hihl
    have hlo : o.Length < 256 := hl o (List.mem_cons_self _ _)
    have heo : e.length ≤ 255 := he e (List.mem_cons_self _ _)
    have hpos := Marshal_length_pos ho
    obtain ⟨f, rfl⟩ : ∃ f, fuel = f + 1 := ⟨fuel - 1, by simp at hfuel; omega⟩
    have hdata : pre ++ (e :: encs').flatten ++ post = pre ++ (e ++ (encs'.flatten ++ post)) := by
      simp [List.append_assoc]
    have hstep := unmarshalOptionsStep_enc p pre (encs'.flatten ++ post) ho hlo heo
    rw [List.append_assoc] at hstep
    rw [hdata]
    simp only [List.flatten_cons, List.length_append] at hihl
    by_cases h0 : o.Typ.Number = 0
    · simp [Packet.unmarshalOptionsLoop, hstep, h0, upToEOL]
    · by_cases hnil : os' = []
      · subst hnil
        cases hrest
        simp only [List.flatten_nil, List.length_nil, Nat.add_zero] at hihl
        simp only [List.flatten_nil, List.nil_append] at hstep
        simp [Packet.unmarshalOptionsLoop, hstep, h0, upToEOL, hihl]
      · have hfl : 0 < encs'.flatten.length := by
          cases hrest with
          | nil => exact absurd rfl hnil
          | @cons o2 e2 _ _ ho2 _ =>
            have := Marshal_length_pos ho2
            simp only [List.flatten_cons, List.length_append]
            omega
        have hne : pre.length + e.length ≠ (p.VerIHL.IHL * 4) % 256 := by omega
        have ih' := ih hnil (fun o ho => hl o (List.mem_cons_of_mem _ ho))
          (fun e he' => he e (List.mem_cons_of_mem _ he'))
          { p with Options := p.Options ++ [o.decoded] } (pre ++ e) post f
          (by simp at hfuel; omega)
          (by simp only [List.length_append]; omega)
        simp only [List.length_append, List.append_assoc] at ih'
        simp [Packet.unmarshalOptionsLoop, hstep, h0, hne, upToEOL, ih']

theorem Unmarshal_no_options (fuel : Nat) (p : Packet)
    (a0 a1 a2 a3 a4 a5 a6 a7 a8 a9 a10 a11 a12 a13 a14 a15 a16 a17 a18 a19 : Nat)
    (rest : List Nat) (h5 : a0 &&& 15 = 5) :
    Packet.Unmarshal fuel p (a0 :: a1 :: a2 :: a3 :: a4 :: a5 :: a6 :: a7 :: a8 :: a9 :: a10 ::
        a11 :: a12 :: a13 :: a14 :: a15 :: a16 :: a17 :: a18 :: a19 :: rest) =
      Run.ok
        { VerIHL := ⟨a0⟩, TOS := a1, Length := 256 * a2 + a3, ID := 256 * a4 + a5,
          FlFrOff := ⟨256 * a6 + a7⟩, TTL := a8, Protocol := a9, Checksum := 256 * a10 + a11,
          Src := ⟨a12, a13, a14, a15⟩, Dst := ⟨a16, a17, a18, a19⟩,
          Data := rest, Options := p.Options } := by
  rw [Unmarshal_header]
  simp [Packet.unmarshalOptions, VersionIHL.IHL, h5, ipHeaderLength, sliceFrom, slice]

theorem Unmarshal_enc {os : List IPOption} {encs : List (List Nat)}
    (h : List.Forall₂ (fun o e => o.Marshal = Run.ok e) os encs) (hne : os ≠ [])
    (hl : ∀ o ∈ os, o.Length < 256) (he : ∀ e ∈ encs, e.length ≤ 255)
    (p : Packet) (hdr payload : List Nat) (hh : hdr.length = 20)
    (hihl : ((hdr.getD 0 0 &&& 15) * 4) % 256 = 20 + encs.flatten.length)
    (fuel : Nat) (hf : os.length ≤ fuel) :
    ∃ q, Packet.Unmarshal fuel p (hdr ++ encs.flatten ++ payload) = Run.ok q ∧
      q.Options = p.Options ++ (upToEOL os).map IPOption.decoded ∧ q.Data = payload ∧
      q.TTL = hdr.getD 8 0 ∧ q.Protocol = hdr.getD 9 0 ∧
      q.Src = ⟨hdr.getD 12 0, hdr.getD 13 0, hdr.getD 14 0, hdr.getD 15 0⟩ ∧
      q.Dst = ⟨hdr.getD 16 0, hdr.getD 17 0, hdr.getD 18 0, hdr.getD 19 0⟩ := by
  obtain ⟨a0, a1, a2, a3, a4, a5, a6, a7, a8, a9, a10, a11, a12, a13, a14, a15, a16, a17, a18,
    a19, rest, rfl⟩ := exists_header (Nat.le_of_eq hh.symm)
  have hrest : rest = [] := by
    simp only [List.length_cons] at hh
    exact List.length_eq_zero.mp (by omega)
  subst hrest
  simp only [List.getD_cons_zero, List.getD_cons_succ] at hihl ⊢
  have hpos : 0 < encs.flatten.length := by
    cases h with
    | nil => exact absurd rfl hne
    | @cons o2 e2 _ _ ho2 _ =>
      have := Marshal_length_pos ho2
      simp only [List.flatten_cons, List.length_append]
      omega
  have hloop := unmarshalOptionsLoop_enc h hne hl he
    { VerIHL := ⟨a0⟩, TOS := a1, Length := 256 * a2 + a3, ID := 256 * a4 + a5,
      FlFrOff := ⟨256 * a6 + a7⟩, TTL := a8, Protocol := a9, Checksum := 256 * a10 + a11,
      Src := ⟨a12, a13, a14, a15⟩, Dst := ⟨a16, a17, a18, a19⟩,
      Data := p.Data, Options := p.Options }
    [a0, a1, a2, a3, a4, a5, a6, a7, a8, a9, a10, a11, a12, a13, a14, a15, a16, a17, a18, a19]
    payload fuel hf hihl
  have hsl : sliceFrom ([a0, a1, a2, a3, a4, a5, a6, a7, a8, a9, a10, a11, a12, a13, a14, a15,
      a16, a17, a18, a19] ++ encs.flatten ++ payload) (20 + encs.flatten.length)
      = Run.ok payload := by
    have e1 : 20 + encs.flatten.length = ([a0, a1, a2, a3, a4, a5, a6, a7, a8, a9, a10, a11,
        a12, a13, a14, a15, a16, a17, a18, a19] ++ encs.flatten).length := by
      simp only [List.length_append, List.length_cons, List.length_nil]
    simp only [sliceFrom, slice]
    rw [if_pos (by simp only [List.length_append, List.length_cons, List.length_nil]; omega)]
    rw [List.take_of_length_le (Nat.le_refl _), e1, List.drop_left]
  have hne20 : ¬((a0 &&& 15) * 4 % 256 = 20) := by omega
  refine ⟨Packet.mk ⟨a0⟩ a1 (256 * a2 + a3) (256 * a4 + a5) ⟨256 * a6 + a7⟩ a8 a9
    (256 * a10 + a11) ⟨a12, a13, a14, a15⟩ ⟨a16, a17, a18, a19⟩ payload
    (p.Options ++ (upToEOL os).map IPOption.decoded), ?_, rfl, rfl, rfl, rfl, rfl, rfl⟩
  have hcons : (a0 :: a1 :: a2 :: a3 :: a4 :: a5 :: a6 :: a7 :: a8 :: a9 :: a10 :: a11 :: a12 ::
      a13 :: a14 :: a15 :: a16 :: a17 :: a18 :: a19 :: (encs.flatten ++ payload)) =
      [a0, a1, a2, a3, a4, a5, a6, a7, a8, a9, a10, a11, a12, a13, a14, a15, a16, a17, a18, a19]
        ++ encs.flatten ++ payload := by simp
  simp only [List.cons_append, List.nil_append, List.append_assoc]
  rw [Unmarshal_header, hcons]
  simp only [Packet.unmarshalOptions, VersionIHL.IHL, ipHeaderLength, hne20, if_false]
  simp only [List.length_cons, List.length_nil, Nat.zero_add, Nat.reduceAdd] at hloop
  rw [hloop]
  simp only [Run.ok_bind, VersionIHL.IHL, hihl, hsl]

/-! ## Encoder and decoder together -/

theorem forall₂_of_forall_ok {opts : List IPOption}
    (h : ∀ o ∈ opts, ∃ e, o.Marshal = Run.ok e) :
    ∃ encs, List.Forall₂ (fun o e => o.Marshal = Run.ok e) opts encs := by
  induction opts with
  | nil => exact ⟨[], List.Forall₂.nil⟩
  | cons o rest ih =>
    obtain ⟨e, he⟩ := h o (List.mem_cons_self _ _)
    obtain ⟨encs, hf⟩ := ih (fun o' ho' => h o' (List.mem_cons_of_mem _ ho'))
    exact ⟨e :: encs, List.Forall₂.cons he hf⟩

theorem padded_length_mod (E : List Nat) :
    (if E.length % 4 = 0 then E
      else E ++ List.replicate (3 - E.length % 4) 1 ++ [0]).length % 4 = 0 := by
  by_cases h4 : E.length % 4 = 0
  · simp [h4]
  · simp only [h4, if_false, List.length_append, List.length_replicate, List.length_singleton]
    omega

theorem marshalOptions_inv {p p1 : Packet} {region : List Nat}
    (h : p.marshalOptions = Run.ok (region, p1)) :
    ∃ encs, List.Forall₂ (fun o e => o.Marshal = Run.ok e) p.Options encs ∧
      region = (if encs.flatten.length % 4 = 0 then encs.flatten
        else encs.flatten ++ List.replicate (3 - encs.flatten.length % 4) 1 ++ [0]) ∧
      p1 = { p with VerIHL := ⟨(p.VerIHL.Value + (region.length / 4) % 256) % 256⟩ } := by
  have h' := h
  unfold Packet.marshalOptions at h'
  simp only [Run.bind_def] at h'
  obtain ⟨E, hE, _⟩ := Run.bind_eq_ok h'
  obtain ⟨encs, hf, hr⟩ := marshalEach_eq_ok hE
  simp only [List.nil_append] at hr
  subst hr
  rw [marshalOptions_of_marshalEach hE] at h
  have h2 := Run.ok.inj h
  have h3 := (Prod.mk.inj h2).1
  have h4 := (Prod.mk.inj h2).2
  refine ⟨encs, hf, h3.symm, ?_⟩
  rw [← h4, ← h3]

theorem flatten_replicate_singleton (k x : Nat) :
    (List.replicate k [x]).flatten = List.replicate k x := by
  induction k with
  | zero => rfl
  | succ n ih => simp [List.replicate_succ, ih]

theorem forall₂_replicate_nop (k : Nat) :
    List.Forall₂ (fun o e => o.Marshal = Run.ok e)
      (List.replicate k (IPOption.mk ⟨1⟩ 0 [])) (List.replicate k [1]) := by
  induction k with
  | zero => exact List.Forall₂.nil
  | succ n ih => exact List.Forall₂.cons nop_Marshal ih

theorem forall₂_append {os1 os2 : List IPOption} {es1 es2 : List (List Nat)}
    (h1 : List.Forall₂ (fun o e => o.Marshal = Run.ok e) os1 es1)
    (h2 : List.Forall₂ (fun o e => o.Marshal = Run.ok e) os2 es2) :
    List.Forall₂ (fun o e => o.Marshal = Run.ok e) (os1 ++ os2) (es1 ++ es2) := by
  induction h1 with
  | nil => exact h2
  | cons ho _ ih => exact List.Forall₂.cons ho ih

/-- The padded region is the concatenation of the encodings of the options
followed by the encodings of the padding options. -/
theorem padded_enc {opts : List IPOption} {encs : List (List Nat)}
    (h : List.Forall₂ (fun o e => o.Marshal = Run.ok e) opts encs) :
    ∃ encs', List.Forall₂ (fun o e => o.Marshal = Run.ok e)
        (opts ++ paddingOptions encs.flatten.length) encs' ∧
      encs'.flatten = (if encs.flatten.length % 4 = 0 then encs.flatten
        else encs.flatten ++ List.replicate (3 - encs.flatten.length % 4) 1 ++ [0]) := by
  by_cases h4 : encs.flatten.length % 4 = 0
  · refine ⟨encs, ?_, by rw [if_pos h4]⟩
    simp only [paddingOptions, h4, if_true, List.append_nil]
    exact h
  · refine ⟨encs ++ (List.replicate (3 - encs.flatten.length % 4) [1] ++ [[0]]), ?_, ?_⟩
    · simp only [paddingOptions, h4, if_false]
      exact forall₂_append h
        (forall₂_append (forall₂_replicate_nop _) (List.Forall₂.cons eool_Marshal List.Forall₂.nil))
    · rw [if_neg h4]
      simp only [List.flatten_append, flatten_replicate_singleton, List.flatten_cons,
        List.flatten_nil, List.append_nil, List.append_assoc]

theorem length_le_flatten_length {os : List IPOption} {encs : List (List Nat)}
    (h : List.Forall₂ (fun o e => o.Marshal = Run.ok e) os encs) :
    os.length ≤ encs.flatten.length := by
  induction h with
  | nil => simp
  | cons ho _ ih =>
    have := Marshal_length_pos ho
    simp only [List.length_cons, List.flatten_cons, List.length_append]
    omega

theorem ihl_of_region : ∀ k, k ≤ 10 →
    (((69 + k % 256) % 256) &&& 15) = 5 + k ∧ ((69 + k % 256) % 256) >>> 4 = 4 ∧
      (69 + k % 256) % 256 = 69 + k := by
  decide

theorem roundtrip_core {P p1 : Packet} {region : List Nat}
    (hm : P.marshalOptions = Run.ok (region, p1)) (hver : P.VerIHL.Value = 0x45)
    (hopts : ∀ o ∈ P.Options, o.Length < 256) (hL : region.length ≤ 40) :
    ∃ bytes p2 encs, P.Marshal = Run.ok (bytes, p2) ∧
      List.Forall₂ (fun o e => o.Marshal = Run.ok e) P.Options encs ∧
      ∀ (fuel : Nat) (q0 : Packet), region.length ≤ fuel →
        ∃ q, Packet.Unmarshal fuel q0 bytes = Run.ok q ∧ q.Src = P.Src ∧ q.Dst = P.Dst ∧
          q.TTL = P.TTL ∧ q.Protocol = P.Protocol ∧ q.Data = P.Data ∧
          q.Options = q0.Options ++
            (upToEOL (P.Options ++ paddingOptions encs.flatten.length)).map IPOption.decoded := by
  obtain ⟨encs, hf, hreg, hp1⟩ := marshalOptions_inv hm
  have hM := Marshal_of_marshalOptions hm
  have hmod : region.length % 4 = 0 := by rw [hreg]; exact padded_length_mod _
  have hk : region.length / 4 ≤ 10 := by omega
  obtain ⟨hihl, _, hval⟩ := ihl_of_region _ hk
  have hv : p1.VerIHL.Value = 69 + region.length / 4 := by
    rw [hp1]
    simp only [hver]
    exact hval
  have hsrc : p1.Src = P.Src := by rw [hp1]
  have hdst : p1.Dst = P.Dst := by rw [hp1]
  have httl : p1.TTL = P.TTL := by rw [hp1]
  have hpro : p1.Protocol = P.Protocol := by rw [hp1]
  have hdat : p1.Data = P.Data := by rw [hp1]
  refine ⟨_, _, encs, hM, hf, ?_⟩
  intro fuel q0 hfuel
  obtain ⟨encs', hf', hfl⟩ := padded_enc hf
  rw [← hreg] at hfl
  by_cases hz : region = []
  · subst hz
    have hos : P.Options ++ paddingOptions encs.flatten.length = [] := by
      have := length_le_flatten_length hf'
      rw [hfl] at this
      exact List.length_eq_zero.mp (by simpa using this)
    rw [hos]
    simp only [List.append_nil, List.cons_append, List.nil_append]
    rw [Unmarshal_no_options]
    · refine ⟨_, rfl, ?_, ?_, ?_, ?_, ?_, ?_⟩
      · simp [← hsrc]
      · simp [← hdst]
      · exact httl
      · exact hpro
      · exact hdat
      · simp [upToEOL]
    · rw [hv]
      rfl
  · have hne : P.Options ++ paddingOptions encs.flatten.length ≠ [] := by
      intro h0
      rw [h0] at hf'
      cases hf'
      exact hz hfl.symm
    have hl : ∀ o ∈ P.Options ++ paddingOptions encs.flatten.length, o.Length < 256 := by
      intro o ho
      rcases List.mem_append.mp ho with h1 | h1
      · exact hopts o h1
      · unfold paddingOptions at h1
        split at h1
        · cases h1
        · rcases List.mem_append.mp h1 with h2 | h2
          · rw [List.eq_of_mem_replicate h2]
            decide
          · rw [List.mem_singleton.mp h2]
            decide
    have he : ∀ e ∈ encs', e.length ≤ 255 := by
      intro e hmem
      have := length_le_flatten hmem
      rw [hfl] at this
      omega
    have hlen := length_le_flatten_length hf'
    rw [hfl] at hlen
    obtain ⟨q, hq, ho, hd, ht, hp, hs, hds⟩ := Unmarshal_enc hf' hne hl he q0
      [p1.VerIHL.Value, p1.TOS,
        (p1.Length + region.length % 65536) % 65536 / 256 % 256,
        (p1.Length + region.length % 65536) % 65536 % 256,
        p1.ID / 256 % 256, p1.ID % 256,
        p1.FlFrOff.Value / 256 % 256, p1.FlFrOff.Value % 256,
        p1.TTL, p1.Protocol, 255, 255,
        p1.Src.b0, p1.Src.b1, p1.Src.b2, p1.Src.b3,
        p1.Dst.b0, p1.Dst.b1, p1.Dst.b2, p1.Dst.b3] p1.Data rfl
      (by
        simp only [List.getD_cons_zero, hv, hfl]
        have h69 : 69 + region.length / 4 = (69 + region.length / 4 % 256) % 256 := hval.symm
        rw [h69, hihl]
        omega)
      fuel (by omega)
    rw [hfl] at hq
    refine ⟨q, hq, ?_, ?_, ?_, ?_, ?_, ho⟩
    · rw [hs]
      simp [← hsrc]
    · rw [hds]
      simp [← hdst]
    · rw [ht]
      simpa using httl
    · rw [hp]
      simpa using hpro
    · rw [hd, hdat]

/-! ## Canonical options -/

theorem decoded_of_canonical {o : IPOption} (h : o.Canonical) : o.decoded = o := by
  unfold IPOption.Canonical at h
  unfold IPOption.decoded
  by_cases hs : o.Typ.Number = 0 ∨ o.Typ.Number = 1
  · simp only [hs, if_true] at h ⊢
    obtain ⟨h1, h2⟩ := h
    cases o
    simp_all
  · simp only [hs, if_false] at h ⊢
    obtain ⟨_, h2⟩ := h
    rw [← h2, List.take_length]

theorem map_decoded_of_canonical {os : List IPOption} (h : ∀ o ∈ os, o.Canonical) :
    os.map IPOption.decoded = os := by
  induction os with
  | nil => rfl
  | cons o rest ih =>
    simp only [List.map_cons]
    rw [decoded_of_canonical (h o (List.mem_cons_self _ _)),
      ih (fun o' ho' => h o' (List.mem_cons_of_mem _ ho'))]

theorem Marshal_ok_of_canonical {o : IPOption} (h : o.Canonical) (hl : o.Length < 256) :
    ∃ e, o.Marshal = Run.ok e := by
  unfold IPOption.Canonical at h
  unfold IPOption.Marshal
  by_cases hs : o.Typ.Number = 0 ∨ o.Typ.Number = 1
  · rw [if_pos hs]
    exact ⟨_, rfl⟩
  · simp only [hs, if_false] at h ⊢
    have hn : (o.Length + 256 - 2) % 256 = o.Length - 2 := by omega
    rw [hn, sliceTo_ok (by omega)]
    exact ⟨_, rfl⟩

theorem upToEOL_cons_ne {o : IPOption} (rest : List IPOption) (h0 : o.Typ.Number ≠ 0) :
    upToEOL (o :: rest) = o :: upToEOL rest := by
  have h : upToEOL (o :: rest) = if o.Typ.Number = 0 then [o] else o :: upToEOL rest := rfl
  rw [h, if_neg h0]

theorem upToEOL_append {os rest : List IPOption} (h : ∀ o ∈ os, o.Typ.Number ≠ 0) :
    upToEOL (os ++ rest) = os ++ upToEOL rest := by
  induction os with
  | nil => rfl
  | cons o os' ih =>
    have h0 : o.Typ.Number ≠ 0 := h o (List.mem_cons_self _ _)
    rw [List.cons_append, upToEOL_cons_ne _ h0,
      ih (fun o' ho' => h o' (List.mem_cons_of_mem _ ho')), List.cons_append]

theorem upToEOL_of_last {os : List IPOption} (h : ∀ o ∈ os.dropLast, o.Typ.Number ≠ 0) :
    upToEOL os = os := by
  induction os with
  | nil => rfl
  | cons o rest ih =>
    cases rest with
    | nil =>
      by_cases h0 : o.Typ.Number = 0
      · simp [upToEOL, h0]
      · simp [upToEOL, h0]
    | cons o2 rest2 =>
      have h0 : o.Typ.Number ≠ 0 := h o (by simp [List.dropLast])
      rw [upToEOL_cons_ne _ h0]
      have := ih (fun o' ho' => h o' (by
        simp only [List.dropLast_cons₂, List.mem_cons]
        exact Or.inr ho'))
      rw [this]

theorem upToEOL_paddingOptions (n : Nat) : upToEOL (paddingOptions n) = paddingOptions n := by
  unfold paddingOptions
  split
  · rfl
  · rw [upToEOL_append]
    · rfl
    · intro o ho
      rw [List.eq_of_mem_replicate ho]
      decide

theorem canonical_paddingOptions (n : Nat) : ∀ o ∈ paddingOptions n, o.Canonical := by
  intro o ho
  unfold paddingOptions at ho
  split at ho
  · cases ho
  · rcases List.mem_append.mp ho with h2 | h2
    · rw [List.eq_of_mem_replicate h2]
      decide
    · rw [List.mem_singleton.mp h2]
      decide

/-! ## Test vectors -/

theorem marshalOptions_New (src dst : IPAddr) (data : List Nat) :
    (New src dst data).marshalOptions = Run.ok ([], New src dst data) := by
  rw [marshalOptions_of_marshalEach (p := New src dst data) (E := []) rfl]
  rfl

theorem Marshal_New (src dst : IPAddr) (data : List Nat) (h : data.length ≤ 65515) :
    (New src dst data).Marshal =
      Run.ok ([0x45, 0, (20 + data.length) / 256, (20 + data.length) % 256, 0, 0, 0, 0, 64, 6,
          0xFF, 0xFF, src.b0, src.b1, src.b2, src.b3, dst.b0, dst.b1, dst.b2, dst.b3] ++ data,
        { New src dst data with Checksum := 65535 }) := by
  rw [Marshal_of_marshalOptions (marshalOptions_New src dst data)]
  have h1 : (20 + data.length) % 65536 = 20 + data.length := by omega
  have h2 : (20 + data.length) / 256 % 256 = (20 + data.length) / 256 := by omega
  simp [New, ipHeaderLength, h1, h2]

theorem marshalOptions_test :
    ((New testAddr testAddr [0]).WithOptions [noOperation]).marshalOptions =
      Run.ok ([1, 1, 1, 0],
        { (New testAddr testAddr [0]).WithOptions [noOperation] with VerIHL := ⟨70⟩ }) := by
  rw [marshalOptions_of_marshalEach (E := [1]) (by decide)]
  rfl

theorem Marshal_test :
    ((New testAddr testAddr [0]).WithOptions [noOperation]).Marshal =
      Run.ok ([70, 0, 0, 25, 0, 0, 0, 0, 64, 6, 255, 255, 1, 2, 3, 4, 1, 2, 3, 4, 1, 1, 1, 0, 0],
        { (New testAddr testAddr [0]).WithOptions [noOperation] with
            VerIHL := ⟨70⟩, Length := 25, Checksum := 65535 }) := by
  rw [Marshal_of_marshalOptions marshalOptions_test]
  rfl

theorem endAroundCarry_test : endAroundCarry 101670 = 36135 := by
  rw [endAroundCarry]
  simp only [show (65536 ≤ 101670) = True from by decide, dite_true]
  rw [endAroundCarry]
  simp

/-! ## The claims -/

/-- Claim C1: for `src`, `dst`, `data` with `len(data) ≤ 65535 - 20`, options
`opts` and any `TTL` and `Protocol` assigned to the packet, when the padded
options region has at most 40 bytes, `Marshal` returns bytes which
`Unmarshal`, run on an empty packet with fuel for the region, decodes to a
packet with the same `Src`, `Dst`, `TTL`, `Protocol` and with `Data` equal to
`data`. -/
theorem roundtrip_fixed_fields_and_payload (src dst : IPAddr) (data : List Nat)
    (opts : List IPOption) (ttl proto : Nat) (region : List Nat) (p1 : Packet)
    (_hlen : data.length ≤ 65535 - 20)
    (hbyte : ∀ o ∈ opts, o.Length < 256)
    (hm : Packet.marshalOptions
        { (New src dst data).WithOptions opts with TTL := ttl, Protocol := proto } =
      Run.ok (region, p1))
    (hL : region.length ≤ 40) :
    ∃ bytes p2,
      Packet.Marshal
          { (New src dst data).WithOptions opts with TTL := ttl, Protocol := proto } =
        Run.ok (bytes, p2) ∧
      ∀ fuel, region.length ≤ fuel →
        ∃ q, Packet.Unmarshal fuel Packet.zero bytes = Run.ok q ∧
          q.Src = src ∧ q.Dst = dst ∧ q.TTL = ttl ∧ q.Protocol = proto ∧ q.Data = data := by
  obtain ⟨bytes, p2, _, hM, _, hU⟩ := roundtrip_core hm rfl
    (by simpa [Packet.WithOptions, New] using hbyte) hL
  refine ⟨bytes, p2, hM, ?_⟩
  intro fuel hfuel
  obtain ⟨q, hq, h1, h2, h3, h4, h5, _⟩ := hU fuel Packet.zero hfuel
  exact ⟨q, hq, h1, h2, h3, h4, h5⟩

theorem roundtrip_fixed_fields_and_payload_witness :
    ∃ bytes p2,
      Packet.Marshal
          { (New testAddr testAddr [0]).WithOptions [noOperation] with
              TTL := 64, Protocol := 6 } = Run.ok (bytes, p2) ∧
      ∀ fuel, [1, 1, 1, 0].length ≤ fuel →
        ∃ q, Packet.Unmarshal fuel Packet.zero bytes = Run.ok q ∧
          q.Src = testAddr ∧ q.Dst = testAddr ∧ q.TTL = 64 ∧ q.Protocol = 6 ∧ q.Data = [0] :=
  roundtrip_fixed_fields_and_payload testAddr testAddr [0] [noOperation] 64 6 [1, 1, 1, 0]
    { (New testAddr testAddr [0]).WithOptions [noOperation] with VerIHL := ⟨70⟩ }
    (by decide) (by decide) marshalOptions_test (by decide)

/-- Claim C2, as stated, fails: the packet of the package test, built with one
no-operation option, decodes to four options (the option, two padding
no-operations and the end-of-list), not to the one option given. -/
theorem roundtrip_options_counterexample :
    ∃ bytes p2 q,
      ((New testAddr testAddr [0]).WithOptions [noOperation]).Marshal = Run.ok (bytes, p2) ∧
      [0].length ≤ 65535 - 20 ∧ [1, 1, 1, 0].length ≤ 40 ∧
      ((New testAddr testAddr [0]).WithOptions [noOperation]).marshalOptions =
        Run.ok ([1, 1, 1, 0],
          { (New testAddr testAddr [0]).WithOptions [noOperation] with VerIHL := ⟨70⟩ }) ∧
      Packet.Unmarshal 4 Packet.zero bytes = Run.ok q ∧
      q.Options = [noOperation, noOperation, noOperation, endOfList] ∧
      q.Options ≠ [noOperation] :=
  ⟨_, _, _, Marshal_test, by decide, by decide, marshalOptions_test, rfl, rfl, by decide⟩

/-- Claim C2, amended: for a packet built by `New(...).WithOptions(opts...)`
with payload length at most `65535 - 20` and padded options region of at most
40 bytes, with `E` the unpadded encoding of `opts`, decoding the bytes of
`Marshal` into an empty packet yields the options that are on the wire: `opts`
followed by the padding options of the encoder (none when `len(E) % 4 = 0`,
otherwise `3 - len(E) % 4` no-operation options and one end-of-list option),
cut after the first end-of-list option, each one as the wire carries it (a
single-octet option with `Length` 0 and no `Value`; any other option with its
`Type`, its `Length` and the first `Length - 2` bytes of its `Value`).  When
every option of `opts` is in that form already and none is an end-of-list
option, the result is `opts`, in order, followed by the padding options. -/
theorem roundtrip_options_with_padding (src dst : IPAddr) (data : List Nat)
    (opts : List IPOption) (region : List Nat) (p1 : Packet)
    (_hlen : data.length ≤ 65535 - 20)
    (hbyte : ∀ o ∈ opts, o.Length < 256)
    (hm : ((New src dst data).WithOptions opts).marshalOptions = Run.ok (region, p1))
    (hL : region.length ≤ 40) :
    ∃ bytes p2 E,
      ((New src dst data).WithOptions opts).Marshal = Run.ok (bytes, p2) ∧
      marshalEach opts [] = Run.ok E ∧
      ∀ fuel, region.length ≤ fuel →
        ∃ q, Packet.Unmarshal fuel Packet.zero bytes = Run.ok q ∧
          q.Options = (upToEOL (opts ++ paddingOptions E.length)).map IPOption.decoded ∧
          ((∀ o ∈ opts, o.Canonical) → (∀ o ∈ opts, o.Typ.Number ≠ 0) →
            q.Options = opts ++ paddingOptions E.length) := by
  obtain ⟨bytes, p2, encs, hM, hf, hU⟩ := roundtrip_core hm rfl
    (by simpa [Packet.WithOptions, New] using hbyte) hL
  have hopts : ((New src dst data).WithOptions opts).Options = opts := by
    simp [Packet.WithOptions, New]
  rw [hopts] at hf hU
  have hE := marshalEach_ok hf []
  rw [List.nil_append] at hE
  refine ⟨bytes, p2, encs.flatten, hM, hE, ?_⟩
  intro fuel hfuel
  obtain ⟨q, hq, _, _, _, _, _, ho⟩ := hU fuel Packet.zero hfuel
  have ho' : q.Options =
      (upToEOL (opts ++ paddingOptions encs.flatten.length)).map IPOption.decoded := by
    rw [ho]
    rfl
  refine ⟨q, hq, ho', ?_⟩
  intro hcanon hnoeol
  rw [ho', upToEOL_append hnoeol, upToEOL_paddingOptions, map_decoded_of_canonical]
  intro o hmem
  rcases List.mem_append.mp hmem with h1 | h1
  · exact hcanon o h1
  · exact canonical_paddingOptions _ o h1

theorem roundtrip_options_with_padding_witness :
    ∃ bytes p2 E,
      ((New testAddr testAddr [0]).WithOptions [noOperation]).Marshal = Run.ok (bytes, p2) ∧
      marshalEach [noOperation] [] = Run.ok E ∧
      ∀ fuel, [1, 1, 1, 0].length ≤ fuel →
        ∃ q, Packet.Unmarshal fuel Packet.zero bytes = Run.ok q ∧
          q.Options =
            (upToEOL ([noOperation] ++ paddingOptions E.length)).map IPOption.decoded ∧
          ((∀ o ∈ [noOperation], o.Canonical) → (∀ o ∈ [noOperation], o.Typ.Number ≠ 0) →
            q.Options = [noOperation] ++ paddingOptions E.length) :=
  roundtrip_options_with_padding testAddr testAddr [0] [noOperation] [1, 1, 1, 0]
    { (New testAddr testAddr [0]).WithOptions [noOperation] with VerIHL := ⟨70⟩ }
    (by decide) (by decide) marshalOptions_test (by decide)

/-- Claim C3: for every packet whose options all encode (`Option.Marshal`
returns), `marshalOptions` returns, so its padding loop terminates, and the
options region it returns has a length that is a multiple of 4. -/
theorem marshalOptions_length_multiple_of_four (p : Packet)
    (h : ∀ o ∈ p.Options, ∃ e, o.Marshal = Run.ok e) :
    ∃ region p1, p.marshalOptions = Run.ok (region, p1) ∧ region.length % 4 = 0 := by
  obtain ⟨encs, hf⟩ := forall₂_of_forall_ok h
  have hE := marshalEach_ok hf []
  rw [List.nil_append] at hE
  exact ⟨_, _, marshalOptions_of_marshalEach hE, padded_length_mod _⟩

theorem marshalOptions_length_multiple_of_four_witness :
    ∃ region p1,
      ((New testAddr testAddr [0]).WithOptions [noOperation]).marshalOptions =
        Run.ok (region, p1) ∧ region.length % 4 = 0 :=
  marshalOptions_length_multiple_of_four
    ((New testAddr testAddr [0]).WithOptions [noOperation])
    (by
      intro o ho
      have ho' : o = noOperation := by simpa [Packet.WithOptions, New] using ho
      rw [ho']
      exact ⟨[1], by decide⟩)

/-- Claim C4, at the packet of the package test `New(1.2.3.4, 1.2.3.4, [0])`:
`Marshal` writes the checksum `0xFFFF`, and the one's-complement sum of the 20
header bytes it returns, checksum field included, is `0x8D27`, not `0xFFFF`. -/
theorem marshal_checksum_sum_test :
    ∃ bytes p1, (New testAddr testAddr [0]).Marshal = Run.ok (bytes, p1) ∧
      p1.Checksum = 0xFFFF ∧
      onesComplementSum (bytes.take 20) = 0x8D27 ∧
      onesComplementSum (bytes.take 20) ≠ 0xFFFF := by
  refine ⟨_, _, Marshal_New testAddr testAddr [0] (by decide), rfl, ?_⟩
  have hs : onesComplementSum (List.take 20
      ([0x45, 0, (20 + [0].length) / 256, (20 + [0].length) % 256, 0, 0, 0, 0, 64, 6,
          0xFF, 0xFF, testAddr.b0, testAddr.b1, testAddr.b2, testAddr.b3,
          testAddr.b0, testAddr.b1, testAddr.b2, testAddr.b3] ++ [0])) = 0x8D27 := by
    have hw : wordSum (List.take 20
      ([0x45, 0, (20 + [0].length) / 256, (20 + [0].length) % 256, 0, 0, 0, 0, 64, 6,
          0xFF, 0xFF, testAddr.b0, testAddr.b1, testAddr.b2, testAddr.b3,
          testAddr.b0, testAddr.b1, testAddr.b2, testAddr.b3] ++ [0])) = 101670 := by decide
    rw [onesComplementSum, hw]
    exact endAroundCarry_test
  rw [hs]
  exact ⟨rfl, by decide⟩

/-- Claim C5: for a packet built by `New(src,dst,data).WithOptions(opts...)`
whose padded options region has length `L ≤ 40`, the first `Marshal` returns
bytes whose byte 0 is `0x40 + 5 + L/4`: its high nibble (`Version`) is 4 and
its low nibble (`IHL`) times 4 is `20 + L`. -/
theorem marshal_version_ihl_byte (src dst : IPAddr) (data : List Nat) (opts : List IPOption)
    (region : List Nat) (p1 : Packet)
    (hm : ((New src dst data).WithOptions opts).marshalOptions = Run.ok (region, p1))
    (hL : region.length ≤ 40) :
    ∃ bytes p2,
      ((New src dst data).WithOptions opts).Marshal = Run.ok (bytes, p2) ∧
      index bytes 0 = Run.ok (0x40 + 5 + region.length / 4) ∧
      (VersionIHL.mk (0x40 + 5 + region.length / 4)).Version = 4 ∧
      (VersionIHL.mk (0x40 + 5 + region.length / 4)).IHL * 4 = 20 + region.length := by
  obtain ⟨encs, _, hreg, hp1⟩ := marshalOptions_inv hm
  have hmod : region.length % 4 = 0 := by rw [hreg]; exact padded_length_mod _
  have hk : region.length / 4 ≤ 10 := by omega
  obtain ⟨hihl, hver, hval⟩ := ihl_of_region _ hk
  have hv : p1.VerIHL.Value = 69 + region.length / 4 := by
    rw [hp1]
    exact hval
  have e1 : 0x40 + 5 + region.length / 4 = 69 + region.length / 4 := by omega
  refine ⟨_, _, Marshal_of_marshalOptions hm, ?_, ?_, ?_⟩
  · simp [index, hv, e1]
  · rw [e1, ← hval]
    exact hver
  · rw [e1, ← hval]
    simp only [VersionIHL.IHL, hihl]
    omega

theorem marshal_version_ihl_byte_witness :
    ∃ bytes p2,
      ((New testAddr testAddr [0]).WithOptions [noOperation]).Marshal = Run.ok (bytes, p2) ∧
      index bytes 0 = Run.ok (0x40 + 5 + [1, 1, 1, 0].length / 4) ∧
      (VersionIHL.mk (0x40 + 5 + [1, 1, 1, 0].length / 4)).Version = 4 ∧
      (VersionIHL.mk (0x40 + 5 + [1, 1, 1, 0].length / 4)).IHL * 4 = 20 + [1, 1, 1, 0].length :=
  marshal_version_ihl_byte testAddr testAddr [0] [noOperation] [1, 1, 1, 0]
    { (New testAddr testAddr [0]).WithOptions [noOperation] with VerIHL := ⟨70⟩ }
    marshalOptions_test (by decide)

/-- Claim C6: for a packet built by `New(src,dst,data).WithOptions(opts...)`
with padded options region of length `L` and `20 + L + len(data) ≤ 65535`, the
first `Marshal` returns exactly `20 + L + len(data)` bytes, and the big-endian
16-bit value at offsets 2-3 is that same number. -/
theorem marshal_total_length (src dst : IPAddr) (data : List Nat) (opts : List IPOption)
    (region : List Nat) (p1 : Packet)
    (hm : ((New src dst data).WithOptions opts).marshalOptions = Run.ok (region, p1))
    (hlen : 20 + region.length + data.length ≤ 65535) :
    ∃ bytes p2,
      ((New src dst data).WithOptions opts).Marshal = Run.ok (bytes, p2) ∧
      bytes.length = 20 + region.length + data.length ∧
      getUint16 bytes 2 = Run.ok (20 + region.length + data.length) := by
  obtain ⟨encs, _, _, hp1⟩ := marshalOptions_inv hm
  have hd : p1.Data = data := by rw [hp1]; rfl
  have hlen1 : p1.Length = (20 + data.length) % 65536 := by rw [hp1]; rfl
  refine ⟨_, _, Marshal_of_marshalOptions hm, ?_, ?_⟩
  · simp only [List.length_append, List.length_cons, List.length_nil, hd]
  · simp only [getUint16, slice, index, hlen1, List.length_append, List.length_cons,
      List.length_nil, hd]
    rw [if_pos (by omega)]
    simp only [List.cons_append, List.take_succ_cons, List.take_zero, List.drop_succ_cons,
      List.drop_zero, Run.bind_def, Run.ok_bind, List.getElem?_cons_zero,
      List.getElem?_cons_succ]
    congr 1
    omega

theorem marshal_total_length_witness :
    ∃ bytes p2,
      ((New testAddr testAddr [0]).WithOptions [noOperation]).Marshal = Run.ok (bytes, p2) ∧
      bytes.length = 20 + [1, 1, 1, 0].length + [0].length ∧
      getUint16 bytes 2 = Run.ok (20 + [1, 1, 1, 0].length + [0].length) :=
  marshal_total_length testAddr testAddr [0] [noOperation] [1, 1, 1, 0]
    { (New testAddr testAddr [0]).WithOptions [noOperation] with VerIHL := ⟨70⟩ }
    marshalOptions_test (by decide)

/-- Claim C7: for `src`, `dst` and `data` with `len(data) ≤ 65515`,
`New(src,dst,data).Marshal()` returns exactly the bytes `0x45, 0`, the high
and low byte of `20 + len(data)`, `0, 0, 0, 0, 64, 6, 0xFF, 0xFF`, the four
bytes of `src`, the four bytes of `dst`, and then `data`. -/
theorem marshal_fresh_packet (src dst : IPAddr) (data : List Nat)
    (h : data.length ≤ 65515) :
    (New src dst data).Marshal =
      Run.ok ([0x45, 0, (20 + data.length) / 256, (20 + data.length) % 256, 0, 0, 0, 0, 64, 6,
          0xFF, 0xFF, src.b0, src.b1, src.b2, src.b3, dst.b0, dst.b1, dst.b2, dst.b3] ++ data,
        { New src dst data with Checksum := 65535 }) ∧
    (20 + data.length) / 256 < 256 ∧
    ([0x45, 0, (20 + data.length) / 256, (20 + data.length) % 256, 0, 0, 0, 0, 64, 6,
      0xFF, 0xFF, src.b0, src.b1, src.b2, src.b3, dst.b0, dst.b1, dst.b2, dst.b3]
        ++ data).length = 20 + data.length := by
  refine ⟨Marshal_New src dst data h, by omega, ?_⟩
  simp only [List.length_append, List.length_cons, List.length_nil]

theorem marshal_fresh_packet_witness :
    (New testAddr testAddr [0]).Marshal =
      Run.ok ([69, 0, 0, 21, 0, 0, 0, 0, 64, 6, 255, 255, 1, 2, 3, 4, 1, 2, 3, 4, 0],
        { New testAddr testAddr [0] with Checksum := 65535 }) :=
  (marshal_fresh_packet testAddr testAddr [0] (by decide)).1

/-- Claim C8: for every packet whose options encode to `encs`, in sequence
order, with `E` the concatenation of `encs`, `marshalOptions` returns the
region `E` itself when `len(E) % 4 = 0` (the empty `E` included), and otherwise
`E` followed by `3 - len(E) % 4` bytes `0x01` and then one byte `0x00`. -/
theorem marshalOptions_padding_shape (p : Packet) (encs : List (List Nat))
    (h : List.Forall₂ (fun o e => o.Marshal = Run.ok e) p.Options encs) :
    ∃ p1, p.marshalOptions =
      Run.ok (if encs.flatten.length % 4 = 0 then encs.flatten
        else encs.flatten ++ List.replicate (3 - encs.flatten.length % 4) 1 ++ [0], p1) := by
  have hE := marshalEach_ok h []
  rw [List.nil_append] at hE
  exact ⟨_, marshalOptions_of_marshalEach hE⟩

theorem marshalOptions_padding_shape_witness :
    ∃ p1, ((New testAddr testAddr [0]).WithOptions [noOperation]).marshalOptions =
      Run.ok (if [[1]].flatten.length % 4 = 0 then [[1]].flatten
        else [[1]].flatten ++ List.replicate (3 - [[1]].flatten.length % 4) 1 ++ [0], p1) :=
  marshalOptions_padding_shape ((New testAddr testAddr [0]).WithOptions [noOperation]) [[1]]
    (List.Forall₂.cons (by decide) List.Forall₂.nil)

/-- Claim C9: for options `os` in canonical form (a single-octet option has
`Length` 0 and no `Value`, any other option has `Length ≥ 2` and exactly
`Length - 2` bytes of `Value`) with an end-of-list option at most as the last
element, whose concatenated encodings `E` have a length `L` with
`0 < L ≤ 40` and `L % 4 = 0`: decoding into an empty packet a buffer made of a
20-byte header with `IHL = 5 + L/4`, then `E`, then a payload, returns, after at
most one loop turn per option, a packet whose `Options` are `os` in wire order
and whose `Data` is the payload. -/
theorem unmarshal_aligned_options (os : List IPOption) (E hdr payload : List Nat) (fuel : Nat)
    (hbyte : ∀ o ∈ os, o.Length < 256)
    (hcanon : ∀ o ∈ os, o.Canonical)
    (heol : ∀ o ∈ os.dropLast, o.Typ.Number ≠ 0)
    (hE : marshalEach os [] = Run.ok E)
    (hpos : 0 < E.length) (h40 : E.length ≤ 40) (h4 : E.length % 4 = 0)
    (hhdr : hdr.length = 20)
    (hihl : (VersionIHL.mk (hdr.getD 0 0)).IHL = 5 + E.length / 4)
    (hfuel : os.length ≤ fuel) :
    ∃ q, Packet.Unmarshal fuel Packet.zero (hdr ++ E ++ payload) = Run.ok q ∧
      q.Options = os ∧ q.Data = payload := by
  obtain ⟨encs, hf, hr⟩ := marshalEach_eq_ok hE
  rw [List.nil_append] at hr
  subst hr
  have hne : os ≠ [] := by
    intro h0
    subst h0
    cases hf
    simp at hpos
  have he : ∀ e ∈ encs, e.length ≤ 255 := by
    intro e hmem
    have := length_le_flatten hmem
    omega
  obtain ⟨q, hq, ho, hd, _⟩ := Unmarshal_enc hf hne hbyte he Packet.zero hdr payload hhdr
    (by
      simp only [VersionIHL.IHL] at hihl
      rw [hihl]
      omega)
    fuel hfuel
  refine ⟨q, hq, ?_, hd⟩
  rw [ho, upToEOL_of_last heol, map_decoded_of_canonical hcanon]
  rfl

theorem unmarshal_aligned_options_witness :
    ∃ q, Packet.Unmarshal 4 Packet.zero
        ([71, 0, 0, 33, 0, 0, 0, 0, 64, 6, 255, 255, 1, 2, 3, 4, 1, 2, 3, 4] ++
          [134, 3, 14, 166, 3, 15, 1, 0] ++ [0, 1, 2, 3, 4]) = Run.ok q ∧
      q.Options = [⟨⟨134⟩, 3, [14]⟩, ⟨⟨166⟩, 3, [15]⟩, noOperation, endOfList] ∧
      q.Data = [0, 1, 2, 3, 4] :=
  unmarshal_aligned_options [⟨⟨134⟩, 3, [14]⟩, ⟨⟨166⟩, 3, [15]⟩, noOperation, endOfList]
    [134, 3, 14, 166, 3, 15, 1, 0]
    [71, 0, 0, 33, 0, 0, 0, 0, 64, 6, 255, 255, 1, 2, 3, 4, 1, 2, 3, 4] [0, 1, 2, 3, 4] 4
    (by decide) (by decide) (by decide) (by decide) (by decide) (by decide) (by decide)
    (by decide) (by decide) (by decide)

/-- Claim C10: for every buffer `d` with `len(d) ≥ 20` whose byte 0 has low
nibble 5, `Unmarshal` returns with every fixed field read from its offset
(16-bit fields big-endian), `Data` set to all bytes from offset 20 to the end
of the buffer whatever the total-length field says, and `Options` unchanged. -/
theorem unmarshal_fixed_header (fuel : Nat) (p : Packet) (d : List Nat)
    (hlen : 20 ≤ d.length) (hihl : (VersionIHL.mk (d.getD 0 0)).IHL = 5) :
    Packet.Unmarshal fuel p d =
      Run.ok
        { VerIHL := ⟨d.getD 0 0⟩
          TOS := d.getD 1 0
          Length := 256 * d.getD 2 0 + d.getD 3 0
          ID := 256 * d.getD 4 0 + d.getD 5 0
          FlFrOff := ⟨256 * d.getD 6 0 + d.getD 7 0⟩
          TTL := d.getD 8 0
          Protocol := d.getD 9 0
          Checksum := 256 * d.getD 10 0 + d.getD 11 0
          Src := ⟨d.getD 12 0, d.getD 13 0, d.getD 14 0, d.getD 15 0⟩
          Dst := ⟨d.getD 16 0, d.getD 17 0, d.getD 18 0, d.getD 19 0⟩
          Data := d.drop 20
          Options := p.Options } := by
  obtain ⟨a0, a1, a2, a3, a4, a5, a6, a7, a8, a9, a10, a11, a12, a13, a14, a15, a16, a17, a18,
    a19, rest, rfl⟩ := exists_header hlen
  simp only [List.getD_cons_zero, List.getD_cons_succ, List.drop_succ_cons, List.drop_zero]
    at hihl ⊢
  exact Unmarshal_no_options fuel p a0 a1 a2 a3 a4 a5 a6 a7 a8 a9 a10 a11 a12 a13 a14 a15 a16
    a17 a18 a19 rest hihl

theorem unmarshal_fixed_header_witness :
    Packet.Unmarshal 0 Packet.zero
        [69, 0, 0, 21, 0, 0, 0, 0, 64, 6, 255, 255, 1, 2, 3, 4, 1, 2, 3, 4, 0] =
      Run.ok
        { VerIHL := ⟨69⟩
          TOS := 0
          Length := 21
          ID := 0
          FlFrOff := ⟨0⟩
          TTL := 64
          Protocol := 6
          Checksum := 65535
          Src := testAddr
          Dst := testAddr
          Data := [0]
          Options := [] } :=
  unmarshal_fixed_header 0 Packet.zero
    [69, 0, 0, 21, 0, 0, 0, 0, 64, 6, 255, 255, 1, 2, 3, 4, 1, 2, 3, 4, 0]
    (by decide) (by decide)

/-- Claim C11: an option whose number is 0 or 1 encodes to the single byte
`Type.Value`, whatever its `Length` and `Value`; any other option with
`Length ≥ 2` (a `uint8`) and at least `Length - 2` bytes of `Value` encodes to
`Type.Value`, `Length` and the first `Length - 2` bytes of `Value`, which are
exactly `Length` bytes. -/
theorem option_marshal_bytes (o : IPOption) :
    ((o.Typ.Number = 0 ∨ o.Typ.Number = 1) → o.Marshal = Run.ok [o.Typ.Value]) ∧
    (¬(o.Typ.Number = 0 ∨ o.Typ.Number = 1) → 2 ≤ o.Length → o.Length < 256 →
      o.Length - 2 ≤ o.Value.length →
      o.Marshal = Run.ok (o.Typ.Value :: o.Length :: o.Value.take (o.Length - 2)) ∧
      (o.Typ.Value :: o.Length :: o.Value.take (o.Length - 2)).length = o.Length) := by
  constructor
  · intro hs
    simp only [IPOption.Marshal, hs, if_true]
  · intro hs h2 h256 hv
    have hn : (o.Length + 256 - 2) % 256 = o.Length - 2 := by omega
    constructor
    · simp only [IPOption.Marshal, hs, if_false, hn, sliceTo_ok hv, Run.bind_def, Run.ok_bind,
        List.cons_append, List.nil_append]
    · simp only [List.length_cons, List.length_take]
      omega

theorem option_marshal_bytes_witness :
    (IPOption.mk ⟨231⟩ 3 [0xFF, 0xFE, 0xFD]).Marshal = Run.ok [231, 3, 0xFF] ∧
    [231, 3, 0xFF].length = 3 :=
  (option_marshal_bytes (IPOption.mk ⟨231⟩ 3 [0xFF, 0xFE, 0xFD])).2
    (by decide) (by decide) (by decide) (by decide)

/-- Claim C12: `Option.Unmarshal` into a zero option leaves it unchanged on an
empty slice; sets only `Type.Value` (to `b[0]`) when the low 5 bits of `b[0]`
are 0 or 1; and otherwise, when `len(b) ≥ 2` and `2 ≤ b[1] ≤ len(b)`, returns
`Type.Value = b[0]`, `Length = b[1]` and `Value = b[2:b[1]]`, which are
`b[1] - 2` bytes, whatever follows them in `b`. -/
theorem option_unmarshal_fields :
    IPOption.zero.Unmarshal [] = Run.ok IPOption.zero ∧
    (∀ (t : Nat) (rest : List Nat), (t &&& 31 = 0 ∨ t &&& 31 = 1) →
      IPOption.zero.Unmarshal (t :: rest) = Run.ok ⟨⟨t⟩, 0, []⟩) ∧
    (∀ (t l : Nat) (rest : List Nat), ¬(t &&& 31 = 0 ∨ t &&& 31 = 1) →
      2 ≤ l → l ≤ (t :: l :: rest).length →
      IPOption.zero.Unmarshal (t :: l :: rest) = Run.ok ⟨⟨t⟩, l, rest.take (l - 2)⟩ ∧
      (rest.take (l - 2)).length = l - 2) := by
  refine ⟨rfl, ?_, ?_⟩
  · intro t rest hs
    simp [IPOption.Unmarshal, index, OptionType.Number, hs, IPOption.zero]
  · intro t l rest hs h2 hl
    simp only [List.length_cons] at hl
    have hsl : slice (t :: l :: rest) 2 l = Run.ok (rest.take (l - 2)) := by
      simp only [slice, List.length_cons]
      rw [if_pos ⟨h2, by omega⟩]
      obtain ⟨k, rfl⟩ : ∃ k, l = k + 2 := ⟨l - 2, by omega⟩
      simp
    constructor
    · simp [IPOption.Unmarshal, index, OptionType.Number, hs, IPOption.zero, hsl]
    · simp only [List.length_take]
      omega

theorem option_unmarshal_fields_witness :
    IPOption.zero.Unmarshal [231, 3, 0xFF, 0xFE, 0xFD] = Run.ok ⟨⟨231⟩, 3, [0xFF]⟩ ∧
    [0xFF].length = 3 - 2 :=
  option_unmarshal_fields.2.2 231 3 [0xFF, 0xFE, 0xFD] (by decide) (by decide) (by decide)

/-! ## Bit fields -/

theorem and_15 (v : Nat) : v &&& 15 = v % 16 := Nat.and_pow_two_sub_one_eq_mod v 4

theorem and_31 (v : Nat) : v &&& 31 = v % 32 := Nat.and_pow_two_sub_one_eq_mod v 5

theorem and_3 (v : Nat) : v &&& 3 = v % 4 := Nat.and_pow_two_sub_one_eq_mod v 2

theorem and_8191 (v : Nat) : v &&& 0x1FFF = v % 8192 := Nat.and_pow_two_sub_one_eq_mod v 13

/-- Claim C19: for every byte `v`, `Version()` is `v >> 4` and `IHL()` is
`v & 15`, both below 16, and `Version()*16 + IHL() = v`; for every 16-bit `f`,
`Flags()` is `f >> 13`, below 8, `FragmentOffset()` is `f & 0x1FFF`, below
8192, and `Flags()*8192 + FragmentOffset() = f`; for every option type byte
`t`, `Copied()` is `t >> 7`, `Class()` is `(t >> 5) & 3`, `Number()` is
`t & 31`, and `Copied()*128 + Class()*32 + Number() = t`. -/
theorem bitfields_partition :
    (∀ v, v < 256 →
      (VersionIHL.mk v).Version = v >>> 4 ∧ (VersionIHL.mk v).IHL = v &&& 15 ∧
      (VersionIHL.mk v).Version < 16 ∧ (VersionIHL.mk v).IHL < 16 ∧
      (VersionIHL.mk v).Version * 16 + (VersionIHL.mk v).IHL = v) ∧
    (∀ f, f < 65536 →
      (FlagsFrOffset.mk f).Flags = f >>> 13 ∧ (FlagsFrOffset.mk f).FragmentOffset = f &&& 0x1FFF ∧
      (FlagsFrOffset.mk f).Flags < 8 ∧ (FlagsFrOffset.mk f).FragmentOffset < 8192 ∧
      (FlagsFrOffset.mk f).Flags * 8192 + (FlagsFrOffset.mk f).FragmentOffset = f) ∧
    (∀ t, t < 256 →
      (OptionType.mk t).Copied = t >>> 7 ∧ (OptionType.mk t).Class = (t >>> 5) &&& 3 ∧
      (OptionType.mk t).Number = t &&& 31 ∧
      (OptionType.mk t).Copied * 128 + (OptionType.mk t).Class * 32 + (OptionType.mk t).Number
        = t) := by
  refine ⟨?_, ?_, ?_⟩
  · intro v hv
    refine ⟨rfl, rfl, ?_, ?_, ?_⟩
    · simp only [VersionIHL.Version, Nat.shiftRight_eq_div_pow]
      omega
    · simp only [VersionIHL.IHL, and_15]
      omega
    · simp only [VersionIHL.Version, VersionIHL.IHL, and_15, Nat.shiftRight_eq_div_pow]
      omega
  · intro f hf
    refine ⟨rfl, rfl, ?_, ?_, ?_⟩
    · simp only [FlagsFrOffset.Flags, Nat.shiftRight_eq_div_pow]
      omega
    · simp only [FlagsFrOffset.FragmentOffset, and_8191]
      omega
    · simp only [FlagsFrOffset.Flags, FlagsFrOffset.FragmentOffset, and_8191,
        Nat.shiftRight_eq_div_pow]
      omega
  · intro t ht
    refine ⟨rfl, rfl, rfl, ?_⟩
    simp only [OptionType.Copied, OptionType.Class, OptionType.Number, and_31, and_3,
      Nat.shiftRight_eq_div_pow]
    omega

theorem bitfields_partition_witness :
    ((VersionIHL.mk 0x47).Version = 0x47 >>> 4 ∧ (VersionIHL.mk 0x47).IHL = 0x47 &&& 15 ∧
      (VersionIHL.mk 0x47).Version < 16 ∧ (VersionIHL.mk 0x47).IHL < 16 ∧
      (VersionIHL.mk 0x47).Version * 16 + (VersionIHL.mk 0x47).IHL = 0x47) ∧
    0x47 < 256 :=
  ⟨bitfields_partition.1 0x47 (by decide), by decide⟩

/-! ## The checksum -/

theorem Marshal_inv {p p2 : Packet} {bytes : List Nat} (h : p.Marshal = Run.ok (bytes, p2)) :
    ∃ region p1, p.marshalOptions = Run.ok (region, p1) := by
  unfold Packet.Marshal at h
  simp only [Run.bind_def] at h
  obtain ⟨⟨region, p1⟩, h1, _⟩ := Run.bind_eq_ok h
  exact ⟨region, p1, h1⟩

/-- Claim C20: for every packet and every byte slice, the empty one and those
shorter than 20 bytes included, `CalculateChecksum` returns `0xFFFF` (it indexes
no byte, or it would panic on the empty slice); hence every buffer returned by
`Marshal` has `0xFF`, `0xFF` at offsets 10 and 11. -/
theorem checksum_constant :
    (∀ (p : Packet) (data : List Nat), p.CalculateChecksum data = Run.ok 0xFFFF) ∧
    (∀ (p : Packet), p.CalculateChecksum [] = Run.ok 0xFFFF) ∧
    (∀ (p p2 : Packet) (bytes : List Nat), p.Marshal = Run.ok (bytes, p2) →
      index bytes 10 = Run.ok 0xFF ∧ index bytes 11 = Run.ok 0xFF ∧ p2.Checksum = 0xFFFF) := by
  refine ⟨CalculateChecksum_eq, fun p => CalculateChecksum_eq p [], ?_⟩
  intro p p2 bytes h
  obtain ⟨region, p1, hm⟩ := Marshal_inv h
  have h2 := Marshal_of_marshalOptions hm
  rw [h] at h2
  have h3 := Run.ok.inj h2
  have hb := (Prod.mk.inj h3).1
  have hp := (Prod.mk.inj h3).2
  rw [hb, hp]
  simp [index]

theorem checksum_constant_witness :
    index [70, 0, 0, 25, 0, 0, 0, 0, 64, 6, 255, 255, 1, 2, 3, 4, 1, 2, 3, 4, 1, 1, 1, 0, 0] 10
      = Run.ok 0xFF ∧
    index [70, 0, 0, 25, 0, 0, 0, 0, 64, 6, 255, 255, 1, 2, 3, 4, 1, 2, 3, 4, 1, 1, 1, 0, 0] 11
      = Run.ok 0xFF ∧
    (Packet.mk ⟨70⟩ 0 25 0 ⟨0⟩ 64 6 65535 testAddr testAddr [0] [noOperation]).Checksum = 0xFFFF :=
  checksum_constant.2.2 ((New testAddr testAddr [0]).WithOptions [noOperation]) _ _ Marshal_test

/-! ## Totality and frame of the encoder -/

theorem Marshal_ok_of_wellformed {o : IPOption}
    (h : ¬(o.Typ.Number = 0 ∨ o.Typ.Number = 1) → 2 ≤ o.Length ∧ o.Length - 2 ≤ o.Value.length) :
    ∃ e, o.Marshal = Run.ok e := by
  unfold IPOption.Marshal
  by_cases hs : o.Typ.Number = 0 ∨ o.Typ.Number = 1
  · rw [if_pos hs]
    exact ⟨_, rfl⟩
  · obtain ⟨h2, hv⟩ := h hs
    rw [if_neg hs, sliceTo_ok (by omega)]
    exact ⟨_, rfl⟩

/-- Claim C18: for every packet in which each option with number other than 0
or 1 has `Length ≥ 2` and at least `Length - 2` bytes of `Value`, `Marshal`
returns without a panic, and the buffer it returns has exactly
`20 + len(options region) + len(Data)` bytes, the last `len(Data)` of which are
`Data`. -/
theorem marshal_total_on_wellformed (p : Packet)
    (hwf : ∀ o ∈ p.Options, ¬(o.Typ.Number = 0 ∨ o.Typ.Number = 1) →
      2 ≤ o.Length ∧ o.Length - 2 ≤ o.Value.length) :
    ∃ region p1 bytes p2,
      p.marshalOptions = Run.ok (region, p1) ∧ p.Marshal = Run.ok (bytes, p2) ∧
      bytes.length = 20 + region.length + p.Data.length ∧
      bytes.drop (20 + region.length) = p.Data := by
  obtain ⟨encs, hf⟩ := forall₂_of_forall_ok
    (fun o ho => Marshal_ok_of_wellformed (hwf o ho))
  have hE := marshalEach_ok hf []
  rw [List.nil_append] at hE
  have hm := marshalOptions_of_marshalEach hE
  refine ⟨_, _, _, _, hm, Marshal_of_marshalOptions hm, ?_, ?_⟩
  · simp only [List.length_append, List.length_cons, List.length_nil]
  · generalize (if encs.flatten.length % 4 = 0 then encs.flatten
      else encs.flatten ++ List.replicate (3 - encs.flatten.length % 4) 1 ++ [0]) = region
    simp only [List.cons_append, List.nil_append, List.drop_succ_cons, Nat.reduceAdd]
    have h20 : 20 + region.length = region.length + 20 := by omega
    rw [h20]
    simp only [List.drop_succ_cons, List.drop_left]

theorem marshal_total_on_wellformed_witness :
    ∃ region p1 bytes p2,
      ((New testAddr testAddr [0]).WithOptions [⟨⟨231⟩, 3, [0xFF, 0xFE, 0xFD]⟩]).marshalOptions
        = Run.ok (region, p1) ∧
      ((New testAddr testAddr [0]).WithOptions [⟨⟨231⟩, 3, [0xFF, 0xFE, 0xFD]⟩]).Marshal
        = Run.ok (bytes, p2) ∧
      bytes.length = 20 + region.length +
        ((New testAddr testAddr [0]).WithOptions [⟨⟨231⟩, 3, [0xFF, 0xFE, 0xFD]⟩]).Data.length ∧
      bytes.drop (20 + region.length) =
        ((New testAddr testAddr [0]).WithOptions [⟨⟨231⟩, 3, [0xFF, 0xFE, 0xFD]⟩]).Data :=
  marshal_total_on_wellformed
    ((New testAddr testAddr [0]).WithOptions [⟨⟨231⟩, 3, [0xFF, 0xFE, 0xFD]⟩])
    (by
      intro o ho
      have ho' : o = ⟨⟨231⟩, 3, [0xFF, 0xFE, 0xFD]⟩ := by
        simpa [Packet.WithOptions, New] using ho
      rw [ho']
      decide)

theorem byteOfInt_lt (a : Int) : byteOfInt a < 256 := by
  unfold byteOfInt
  omega

theorem byteOfInt_of_byte (a : Int) (h0 : 0 ≤ a) (h1 : a < 256) : byteOfInt a = a.toNat := by
  unfold byteOfInt
  omega

/-- Claim C17: `IPFromString(s)` fails exactly when splitting `s` on `'.'` does
not give 4 components or `Atoi` fails on one of them; when it succeeds, byte
`i` of the address is component `i` reduced to its low 8 bits, so a component
in `0..255` is returned unchanged. -/
theorem IPFromString_spec (s : String) :
    (IPFromString s = none ↔
      ((splitDot s.toList).length ≠ 4 ∨ ∃ c ∈ splitDot s.toList, Atoi c = none)) ∧
    (∀ s0 s1 s2 s3 a b c d, splitDot s.toList = [s0, s1, s2, s3] →
      Atoi s0 = some a → Atoi s1 = some b → Atoi s2 = some c → Atoi s3 = some d →
      IPFromString s = some ⟨byteOfInt a, byteOfInt b, byteOfInt c, byteOfInt d⟩) ∧
    (∀ a : Int, (byteOfInt a : Int) = a % 256 ∧ byteOfInt a < 256 ∧
      (0 ≤ a → a < 256 → (byteOfInt a : Int) = a)) := by
  refine ⟨?_, ?_, ?_⟩
  · unfold IPFromString
    simp only []
    generalize splitDot s.toList = l
    rcases l with _ | ⟨s0, _ | ⟨s1, _ | ⟨s2, _ | ⟨s3, _ | ⟨s4, r⟩⟩⟩⟩⟩
    · simp
    · simp
    · simp
    · simp
    · cases h0 : Atoi s0 <;> cases h1 : Atoi s1 <;> cases h2 : Atoi s2 <;>
        cases h3 : Atoi s3 <;> simp [h0, h1, h2, h3]
    · simp
  · intro s0 s1 s2 s3 a b c d hs h0 h1 h2 h3
    unfold IPFromString
    simp only [hs]
    simp [h0, h1, h2, h3]
  · intro a
    refine ⟨?_, byteOfInt_lt a, ?_⟩
    · unfold byteOfInt
      omega
    · intro h0 h1
      unfold byteOfInt
      omega

theorem IPFromString_spec_witness :
    IPFromString "1.2.3.4" = some ⟨1, 2, 3, 4⟩ ∧ IPFromString "1.2.3" = none :=
  ⟨(IPFromString_spec "1.2.3.4").2.1 ['1'] ['2'] ['3'] ['4'] 1 2 3 4
      (by decide) (by decide) (by decide) (by decide) (by decide),
    (IPFromString_spec "1.2.3").1.mpr (Or.inl (by decide))⟩

/-! ## Decoding malformed input -/

theorem Unmarshal_short (fuel : Nat) (q : Packet) (data : List Nat) (h : data.length < 20) :
    Packet.Unmarshal fuel q data = Run.ok q := by
  unfold Packet.Unmarshal
  rw [if_pos (by simpa [ipHeaderLength] using h)]

theorem Unmarshal_of_length (fuel : Nat) (q : Packet) (d : List Nat) (h : 20 ≤ d.length) :
    Packet.Unmarshal fuel q d =
      Run.bind (Packet.unmarshalOptions fuel (q.withFixedFields d) d)
        (fun r => Run.bind (sliceFrom d ((r.VerIHL.IHL * 4) % 256))
          (fun rest => Run.ok { r with Data := rest })) := by
  obtain ⟨a0, a1, a2, a3, a4, a5, a6, a7, a8, a9, a10, a11, a12, a13, a14, a15, a16, a17, a18,
    a19, rest, rfl⟩ := exists_header h
  rw [Unmarshal_header]
  rfl

theorem loop_stateAfter {data : List Nat} {n : Nat} :
    ∀ {p p1 : Packet} {pointer pointer1 : Nat},
      stateAfter data n p pointer = some (p1, pointer1) →
      ∀ f, Packet.unmarshalOptionsLoop data (n + f) p pointer =
        Packet.unmarshalOptionsLoop data f p1 pointer1 := by
  induction n with
  | zero =>
    intro p p1 pointer pointer1 h f
    simp only [stateAfter, Option.some.injEq, Prod.mk.injEq] at h
    obtain ⟨rfl, rfl⟩ := h
    simp
  | succ n ih =>
    intro p p1 pointer pointer1 h f
    have e : n + 1 + f = (n + f) + 1 := by omega
    rw [e]
    simp only [stateAfter] at h
    simp only [Packet.unmarshalOptionsLoop]
    split at h
    · rename_i p2 pointer2 hstep
      rw [hstep]
      exact ih h f
    · cases h

theorem loop_outOfFuel_of_stateAfter {data : List Nat} {n : Nat} :
    ∀ {p p1 : Packet} {pointer pointer1 : Nat},
      stateAfter data n p pointer = some (p1, pointer1) →
      ∀ f, f ≤ n → Packet.unmarshalOptionsLoop data f p pointer = Run.outOfFuel := by
  induction n with
  | zero =>
    intro p p1 pointer pointer1 _ f hf
    have : f = 0 := by omega
    subst this
    rfl
  | succ n ih =>
    intro p p1 pointer pointer1 h f hf
    cases f with
    | zero => rfl
    | succ f =>
      simp only [stateAfter] at h
      simp only [Packet.unmarshalOptionsLoop]
      split at h
      · rename_i p2 pointer2 hstep
        rw [hstep]
        exact ih h f (by omega)
      · cases h

theorem step_truncated (p : Packet) {data : List Nat} {pointer t : Nat}
    (ht : index data pointer = Run.ok t) (hmulti : ¬(t &&& 31 = 0 ∨ t &&& 31 = 1))
    (htrunc : data.length ≤ pointer + 1 ∨
      ∃ l, index data (pointer + 1) = Run.ok l ∧ data.length < pointer + l) :
    p.unmarshalOptionsStep data pointer = Run.panic := by
  unfold Packet.unmarshalOptionsStep
  simp only [Run.bind_def, ht, Run.ok_bind, hmulti, if_false]
  rcases htrunc with h | ⟨l, hl, h⟩
  · rw [index_ge h]
    rfl
  · rw [hl]
    simp only [Run.ok_bind, slice]
    rw [if_neg (by omega)]
    rfl

/-- What one turn of the options loop does to the receiver, the pointer and the
flag. -/
theorem step_inv {p p2 : Packet} {data : List Nat} {pointer pointer2 : Nat} {flag : Bool}
    (h : p.unmarshalOptionsStep data pointer = Run.ok (p2, pointer2, flag)) :
    ∃ opt, p2 = { p with Options := p.Options ++ [opt] } ∧ pointer ≤ pointer2 ∧
      (flag = false → pointer2 = (p.VerIHL.IHL * 4) % 256 ∨ opt.Typ.Number = 0) := by
  unfold Packet.unmarshalOptionsStep at h
  simp only [Run.bind_def] at h
  obtain ⟨t, _, h1⟩ := Run.bind_eq_ok h
  split at h1
  · obtain ⟨b, _, h2⟩ := Run.bind_eq_ok h1
    obtain ⟨opt, _, h3⟩ := Run.bind_eq_ok h2
    have h4 := Run.ok.inj h3
    simp only [Prod.mk.injEq] at h4
    obtain ⟨rfl, rfl, hflag⟩ := h4
    refine ⟨opt, rfl, by omega, ?_⟩
    intro hf
    subst hf
    by_cases h0 : opt.Typ.Number = 0
    · exact Or.inr h0
    · left
      by_contra hne
      simp [h0, hne] at hflag
  · obtain ⟨l, _, h2⟩ := Run.bind_eq_ok h1
    obtain ⟨b, _, h3⟩ := Run.bind_eq_ok h2
    obtain ⟨opt, _, h4⟩ := Run.bind_eq_ok h3
    have h5 := Run.ok.inj h4
    simp only [Prod.mk.injEq] at h5
    obtain ⟨rfl, rfl, hflag⟩ := h5
    refine ⟨opt, rfl, by omega, ?_⟩
    intro hf
    subst hf
    left
    by_contra hne
    simp [hne] at hflag

theorem loop_fields {data : List Nat} {fuel : Nat} :
    ∀ {p r : Packet} {pointer : Nat},
      Packet.unmarshalOptionsLoop data fuel p pointer = Run.ok r →
      ∃ opts, r = { p with Options := p.Options ++ opts } := by
  induction fuel with
  | zero =>
    intro p r pointer h
    cases h
  | succ f ih =>
    intro p r pointer h
    simp only [Packet.unmarshalOptionsLoop] at h
    split at h
    · rename_i p2 pointer2 hstep
      obtain ⟨opt, rfl, _, _⟩ := step_inv hstep
      obtain ⟨opts, rfl⟩ := ih h
      exact ⟨[opt] ++ opts, by simp⟩
    · rename_i p2 pointer2 hstep
      obtain ⟨opt, rfl, _, _⟩ := step_inv hstep
      exact ⟨[opt], (Run.ok.inj h).symm⟩
    · cases h
    · cases h

theorem stateAfter_fields {data : List Nat} {n : Nat} :
    ∀ {p p1 : Packet} {pointer pointer1 : Nat},
      stateAfter data n p pointer = some (p1, pointer1) →
      ∃ opts, p1 = { p with Options := p.Options ++ opts } := by
  induction n with
  | zero =>
    intro p p1 pointer pointer1 h
    simp only [stateAfter, Option.some.injEq, Prod.mk.injEq] at h
    exact ⟨[], by simp [h.1.symm]⟩
  | succ n ih =>
    intro p p1 pointer pointer1 h
    simp only [stateAfter] at h
    split at h
    · rename_i p2 pointer2 hstep
      obtain ⟨opt, rfl, _, _⟩ := step_inv hstep
      obtain ⟨opts, rfl⟩ := ih h
      exact ⟨[opt] ++ opts, by simp⟩
    · cases h

theorem ihl_bounds {v : Nat} (h : 5 < (VersionIHL.mk v).IHL) :
    (VersionIHL.mk v).IHL * 4 % 256 = (VersionIHL.mk v).IHL * 4 ∧
      (VersionIHL.mk v).IHL * 4 ≠ 20 := by
  have h15 : (VersionIHL.mk v).IHL ≤ 15 := Nat.and_le_right
  omega

theorem sliceFrom_eq_ok {data rest : List Nat} {lo : Nat}
    (h : sliceFrom data lo = Run.ok rest) : rest = data.drop lo := by
  unfold sliceFrom slice at h
  split at h
  · rw [List.take_of_length_le (Nat.le_refl _)] at h
    exact (Run.ok.inj h).symm
  · cases h

theorem ReadPacket_frame (e fuel : Nat) (data : List Nat) (rest : List FrameRead) :
    ReadPacket e fuel (FrameRead.frame e data :: rest) =
      Run.bind (Packet.Unmarshal fuel Packet.zero data) (fun p => Run.ok (some p, none)) := by
  simp [ReadPacket]

/-- Claim C13, as stated, fails: on a 3-byte input `Unmarshal` returns normally
and leaves the empty packet as it was, and `ReadPacket` hands that packet to
its caller with a `nil` error. -/
theorem unmarshal_too_short_counterexample :
    [69, 0, 0].length < 20 ∧
    Packet.Unmarshal 0 Packet.zero [69, 0, 0] = Run.ok Packet.zero ∧
    ReadPacket 2048 0 [FrameRead.frame 2048 [69, 0, 0]] = Run.ok (some Packet.zero, none) :=
  ⟨by decide, rfl, rfl⟩

/-- Claim C13, amended: for every input buffer shorter than 20 bytes,
`Unmarshal` returns at once and leaves the packet unchanged: it sets no field
and has no error to report; `ReadPacket`, on a frame with such a payload,
returns the empty packet with a `nil` error. -/
theorem unmarshal_too_short_unchanged (fuel : Nat) (q : Packet) (data : List Nat)
    (h : data.length < 20) :
    Packet.Unmarshal fuel q data = Run.ok q ∧
    ∀ (e : Nat) (rest : List FrameRead),
      ReadPacket e fuel (FrameRead.frame e data :: rest) = Run.ok (some Packet.zero, none) := by
  refine ⟨Unmarshal_short fuel q data h, ?_⟩
  intro e rest
  rw [ReadPacket_frame, Unmarshal_short fuel Packet.zero data h]
  rfl

theorem unmarshal_too_short_unchanged_witness :
    Packet.Unmarshal 0 (New testAddr testAddr [0]) [69, 0, 0] =
      Run.ok (New testAddr testAddr [0]) ∧
    ∀ (e : Nat) (rest : List FrameRead),
      ReadPacket e 0 (FrameRead.frame e [69, 0, 0] :: rest) =
        Run.ok (some Packet.zero, none) :=
  unmarshal_too_short_unchanged 0 (New testAddr testAddr [0]) [69, 0, 0] (by decide)

/-- Claim C14, as stated, fails: on a 22-byte input with `IHL` 6 whose option
at offset 20 has number 2 and declares 10 bytes, `Unmarshal` panics, and so
does `ReadPacket`: its caller gets no error value. -/
theorem unmarshal_truncated_option_counterexample :
    Packet.Unmarshal 1 Packet.zero
        [70, 0, 0, 22, 0, 0, 0, 0, 64, 6, 255, 255, 1, 2, 3, 4, 1, 2, 3, 4, 130, 10]
      = Run.panic ∧
    ReadPacket 2048 1 [FrameRead.frame 2048
        [70, 0, 0, 22, 0, 0, 0, 0, 64, 6, 255, 255, 1, 2, 3, 4, 1, 2, 3, 4, 130, 10]]
      = Run.panic ∧
    ∀ x, ReadPacket 2048 1 [FrameRead.frame 2048
        [70, 0, 0, 22, 0, 0, 0, 0, 64, 6, 255, 255, 1, 2, 3, 4, 1, 2, 3, 4, 130, 10]]
      ≠ Run.ok x := by
  have h : ReadPacket 2048 1 [FrameRead.frame 2048
        [70, 0, 0, 22, 0, 0, 0, 0, 64, 6, 255, 255, 1, 2, 3, 4, 1, 2, 3, 4, 130, 10]]
      = Run.panic := rfl
  refine ⟨rfl, h, ?_⟩
  intro x hx
  rw [h] at hx
  cases hx

/-- Claim C14, amended: for every input buffer of at least 20 bytes (a slice
whose capacity is its length) whose `IHL` is greater than 5, when the options
parser, after `n` turns, reaches a multi-byte option (number not 0 or 1) whose
length byte lies past the end of the input or whose declared length exceeds
the bytes remaining, `Unmarshal`, given fuel for more than `n` turns, stops
with a run-time panic (index or slice out of range): it returns no packet and
no error value. -/
theorem unmarshal_truncated_option_panics (fuel n : Nat) (q p1 : Packet) (data : List Nat)
    (pointer t : Nat)
    (hlen : 20 ≤ data.length) (hihl : 5 < (VersionIHL.mk (data.getD 0 0)).IHL)
    (hreach : stateAfter data n (q.withFixedFields data) 20 = some (p1, pointer))
    (ht : index data pointer = Run.ok t) (hmulti : ¬(t &&& 31 = 0 ∨ t &&& 31 = 1))
    (htrunc : data.length ≤ pointer + 1 ∨
      ∃ l, index data (pointer + 1) = Run.ok l ∧ data.length < pointer + l)
    (hfuel : n < fuel) :
    Packet.Unmarshal fuel q data = Run.panic := by
  obtain ⟨hmod, hne⟩ := ihl_bounds hihl
  obtain ⟨f, rfl⟩ : ∃ f, fuel = n + (f + 1) := ⟨fuel - n - 1, by omega⟩
  rw [Unmarshal_of_length _ q data hlen]
  have hv : (q.withFixedFields data).VerIHL = VersionIHL.mk (data.getD 0 0) := rfl
  simp only [Packet.unmarshalOptions, hv, hmod, ipHeaderLength, hne, if_false]
  rw [loop_stateAfter hreach (f + 1)]
  simp only [Packet.unmarshalOptionsLoop, step_truncated p1 ht hmulti htrunc]
  rfl

theorem unmarshal_truncated_option_panics_witness :
    Packet.Unmarshal 1 Packet.zero
        [70, 0, 0, 22, 0, 0, 0, 0, 64, 6, 255, 255, 1, 2, 3, 4, 1, 2, 3, 4, 130, 10]
      = Run.panic :=
  unmarshal_truncated_option_panics 1 0 Packet.zero
    (Packet.zero.withFixedFields
      [70, 0, 0, 22, 0, 0, 0, 0, 64, 6, 255, 255, 1, 2, 3, 4, 1, 2, 3, 4, 130, 10])
    [70, 0, 0, 22, 0, 0, 0, 0, 64, 6, 255, 255, 1, 2, 3, 4, 1, 2, 3, 4, 130, 10] 20 130
    (by decide) (by decide) rfl rfl (by decide) (Or.inr ⟨10, rfl, by decide⟩) (by decide)

/-- Claim C15, at a failing input: on a 27-byte input with `IHL` 6
(`IHL*4 = 24`) whose option at offset 20 has 6 bytes, so that the next
boundary is 26 and steps past 24, the options loop does not stop: `Unmarshal`
decodes the option with the bytes at offsets 24 and 25 in its `Value`, goes on
to the end-of-list option at offset 26 and returns a packet whose `Data`
begins with these same two bytes; `ReadPacket` returns that packet with a
`nil` error.  With a no-operation byte instead of that end-of-list option the
loop runs on to the end of the input and panics. -/
theorem unmarshal_overrun_reads_past_header :
    (VersionIHL.mk 70).IHL * 4 = 24 ∧
    Packet.Unmarshal 2 Packet.zero
        [70, 0, 0, 27, 0, 0, 0, 0, 64, 6, 255, 255, 1, 2, 3, 4, 1, 2, 3, 4, 130, 6, 1, 2, 3, 4, 0]
      = Run.ok (Packet.mk ⟨70⟩ 0 27 0 ⟨0⟩ 64 6 65535 testAddr testAddr [3, 4, 0]
          [⟨⟨130⟩, 6, [1, 2, 3, 4]⟩, endOfList]) ∧
    ReadPacket 2048 2 [FrameRead.frame 2048
        [70, 0, 0, 27, 0, 0, 0, 0, 64, 6, 255, 255, 1, 2, 3, 4, 1, 2, 3, 4, 130, 6, 1, 2, 3, 4, 0]]
      = Run.ok (some (Packet.mk ⟨70⟩ 0 27 0 ⟨0⟩ 64 6 65535 testAddr testAddr [3, 4, 0]
          [⟨⟨130⟩, 6, [1, 2, 3, 4]⟩, endOfList]), none) ∧
    Packet.Unmarshal 3 Packet.zero
        [70, 0, 0, 27, 0, 0, 0, 0, 64, 6, 255, 255, 1, 2, 3, 4, 1, 2, 3, 4, 130, 6, 1, 2, 3, 4, 1]
      = Run.panic :=
  ⟨rfl, rfl, rfl, rfl⟩

/-! ## Single options and termination of the options loop -/

theorem Unmarshal_Marshal_decoded {o : IPOption} {e : List Nat} (hm : o.Marshal = Run.ok e)
    (hl : o.Length < 256) (he : e.length ≤ 255) :
    IPOption.zero.Unmarshal e = Run.ok o.decoded := by
  rcases Marshal_shape hm hl he with ⟨hs, rfl⟩ | ⟨hs, h2, hv, rfl⟩
  · have hs2 : o.Typ.Value &&& 31 = 0 ∨ o.Typ.Value &&& 31 = 1 := hs
    simp [IPOption.Unmarshal, index, IPOption.decoded, hs, OptionType.Number, hs2,
      IPOption.zero]
  · have hne : ¬(o.Typ.Value &&& 31 = 0 ∨ o.Typ.Value &&& 31 = 1) := hs
    have hs3 : slice (o.Typ.Value :: o.Length :: List.take (o.Length - 2) o.Value) 2 o.Length
        = Run.ok (List.take (o.Length - 2) o.Value) := by
      have := slice_append [o.Typ.Value, o.Length] (List.take (o.Length - 2) o.Value) []
      simp only [List.append_nil, List.length_cons, List.length_nil, List.length_take] at this
      have e2 : 0 + 1 + 1 + min (o.Length - 2) o.Value.length = o.Length := by omega
      rw [e2] at this
      simpa using this
    simp [IPOption.Unmarshal, index, IPOption.decoded, hs, OptionType.Number, hne,
      IPOption.zero, hs3]

/-- Claim C22: for every option `o` that is single-byte (number 0 or 1,
`Length` 0, empty `Value`) or multi-byte (number not 0 or 1) with `Length ≥ 2`
(a `uint8`) and `len(Value) = Length - 2`, `o.Marshal()` returns, and decoding
the bytes it returns with `Option.Unmarshal` into a zero option yields `o`:
the same `Type`, `Length` and `Value`. -/
theorem option_roundtrip (o : IPOption) (hc : o.Canonical) (hl : o.Length < 256) :
    ∃ e, o.Marshal = Run.ok e ∧ IPOption.zero.Unmarshal e = Run.ok o := by
  obtain ⟨e, he⟩ := Marshal_ok_of_canonical hc hl
  have hlen : e.length ≤ 255 := by
    unfold IPOption.Canonical at hc
    unfold IPOption.Marshal at he
    by_cases hs : o.Typ.Number = 0 ∨ o.Typ.Number = 1
    · rw [if_pos hs] at he
      rw [← Run.ok.inj he]
      simp
    · rw [if_neg hs] at hc he
      simp only [Run.bind_def] at he
      obtain ⟨v, hv, h2⟩ := Run.bind_eq_ok he
      obtain ⟨_, rfl⟩ := sliceTo_eq_ok hv
      rw [← Run.ok.inj h2]
      simp only [List.cons_append, List.nil_append, List.length_cons, List.length_take]
      omega
  refine ⟨e, he, ?_⟩
  rw [Unmarshal_Marshal_decoded he hl hlen, decoded_of_canonical hc]

theorem option_roundtrip_witness :
    ∃ e, (IPOption.mk ⟨231⟩ 3 [0xFF]).Marshal = Run.ok e ∧
      IPOption.zero.Unmarshal e = Run.ok (IPOption.mk ⟨231⟩ 3 [0xFF]) :=
  option_roundtrip (IPOption.mk ⟨231⟩ 3 [0xFF]) (by decide) (by decide)

theorem Run.bind_eq_outOfFuel {α β : Type} {x : Run α} {f : α → Run β}
    (h : Run.bind x f = Run.outOfFuel) :
    x = Run.outOfFuel ∨ ∃ a, x = Run.ok a ∧ f a = Run.outOfFuel := by
  cases x with
  | ok a => exact Or.inr ⟨a, rfl, h⟩
  | panic => cases h
  | outOfFuel => exact Or.inl rfl

theorem index_ne_outOfFuel (s : List Nat) (i : Nat) : index s i ≠ Run.outOfFuel := by
  unfold index
  split <;> exact fun h => by cases h

theorem slice_ne_outOfFuel (s : List Nat) (lo hi : Nat) : slice s lo hi ≠ Run.outOfFuel := by
  unfold slice
  split <;> exact fun h => by cases h

theorem option_Unmarshal_ne_outOfFuel (o : IPOption) (b : List Nat) :
    o.Unmarshal b ≠ Run.outOfFuel := by
  intro h
  unfold IPOption.Unmarshal at h
  simp only [Run.bind_def] at h
  split at h
  · cases h
  · rcases Run.bind_eq_outOfFuel h with h1 | ⟨t, _, h1⟩
    · exact index_ne_outOfFuel _ _ h1
    · split at h1
      · cases h1
      · split at h1
        · rcases Run.bind_eq_outOfFuel h1 with h2 | ⟨l, _, h2⟩
          · exact index_ne_outOfFuel _ _ h2
          · rcases Run.bind_eq_outOfFuel h2 with h3 | ⟨v, _, h3⟩
            · exact slice_ne_outOfFuel _ _ _ h3
            · cases h3
        · cases h1

theorem step_ne_outOfFuel (p : Packet) (data : List Nat) (pointer : Nat) :
    p.unmarshalOptionsStep data pointer ≠ Run.outOfFuel := by
  intro h
  unfold Packet.unmarshalOptionsStep at h
  simp only [Run.bind_def] at h
  rcases Run.bind_eq_outOfFuel h with h1 | ⟨t, _, h1⟩
  · exact index_ne_outOfFuel _ _ h1
  · split at h1
    · rcases Run.bind_eq_outOfFuel h1 with h2 | ⟨b, _, h2⟩
      · exact slice_ne_outOfFuel _ _ _ h2
      · rcases Run.bind_eq_outOfFuel h2 with h3 | ⟨opt, _, h3⟩
        · exact option_Unmarshal_ne_outOfFuel _ _ h3
        · cases h3
    · rcases Run.bind_eq_outOfFuel h1 with h2 | ⟨l, _, h2⟩
      · exact index_ne_outOfFuel _ _ h2
      · rcases Run.bind_eq_outOfFuel h2 with h3 | ⟨b, _, h3⟩
        · exact slice_ne_outOfFuel _ _ _ h3
        · rcases Run.bind_eq_outOfFuel h3 with h4 | ⟨opt, _, h4⟩
          · exact option_Unmarshal_ne_outOfFuel _ _ h4
          · cases h4

/-- When every turn of the options loop that returns moves the pointer forward,
the loop ends within `len(data) - pointer + 1` turns: it never runs out of
fuel. -/
theorem loop_ends_of_progress {data : List Nat}
    (hprog : ∀ (p p2 : Packet) (pointer pointer2 : Nat) (flag : Bool),
      p.unmarshalOptionsStep data pointer = Run.ok (p2, pointer2, flag) → pointer < pointer2) :
    ∀ (fuel : Nat) (p : Packet) (pointer : Nat), data.length - pointer < fuel →
      Packet.unmarshalOptionsLoop data fuel p pointer ≠ Run.outOfFuel := by
  intro fuel
  induction fuel with
  | zero =>
    intro p pointer h
    omega
  | succ f ih =>
    intro p pointer h
    simp only [Packet.unmarshalOptionsLoop]
    split
    · rename_i p2 pointer2 hstep
      have hlt := hprog p p2 pointer pointer2 true hstep
      have hin : pointer < data.length := by
        by_contra hge
        unfold Packet.unmarshalOptionsStep at hstep
        rw [index_ge (by omega)] at hstep
        cases hstep
      exact ih p2 pointer2 (by omega)
    · intro h2
      cases h2
    · intro h2
      cases h2
    · rename_i hstep
      exact absurd hstep (step_ne_outOfFuel p data pointer)

/-- A turn of the options loop that returns leaves the pointer in place only on
a multi-byte option (number not 0 or 1) whose length byte is 0; otherwise it
moves the pointer forward. -/
theorem step_progress {p p2 : Packet} {data : List Nat} {pointer pointer2 : Nat} {flag : Bool}
    (h : p.unmarshalOptionsStep data pointer = Run.ok (p2, pointer2, flag)) :
    pointer < pointer2 ∨
      (pointer2 = pointer ∧ index data (pointer + 1) = Run.ok 0 ∧
        ∃ t, index data pointer = Run.ok t ∧ ¬(t &&& 31 = 0 ∨ t &&& 31 = 1)) := by
  unfold Packet.unmarshalOptionsStep at h
  simp only [Run.bind_def] at h
  obtain ⟨t, ht, h1⟩ := Run.bind_eq_ok h
  split at h1
  · obtain ⟨b, _, h2⟩ := Run.bind_eq_ok h1
    obtain ⟨opt, _, h3⟩ := Run.bind_eq_ok h2
    have h4 := Run.ok.inj h3
    simp only [Prod.mk.injEq] at h4
    obtain ⟨_, rfl, _⟩ := h4
    left
    omega
  · rename_i hmulti
    obtain ⟨l, hl, h2⟩ := Run.bind_eq_ok h1
    obtain ⟨b, _, h3⟩ := Run.bind_eq_ok h2
    obtain ⟨opt, _, h4⟩ := Run.bind_eq_ok h3
    have h5 := Run.ok.inj h4
    simp only [Prod.mk.injEq] at h5
    obtain ⟨_, rfl, _⟩ := h5
    by_cases h0 : l = 0
    · subst h0
      exact Or.inr ⟨rfl, hl, t, ht, hmulti⟩
    · left
      omega

theorem step_zero_length (p : Packet) (h : p.VerIHL = ⟨70⟩) :
    p.unmarshalOptionsStep
        [70, 0, 0, 24, 0, 0, 0, 0, 64, 6, 255, 255, 1, 2, 3, 4, 1, 2, 3, 4, 130, 0, 0, 0] 20 =
      Run.ok ({ p with Options := p.Options ++ [IPOption.zero] }, 20, true) := by
  have h1 : 130 &&& 31 = 2 := by decide
  have h2 : 70 &&& 15 = 6 := by decide
  simp [Packet.unmarshalOptionsStep, index, slice, IPOption.Unmarshal, h, VersionIHL.IHL, h1, h2]

theorem loop_zero_length (fuel : Nat) :
    ∀ p : Packet, p.VerIHL = ⟨70⟩ →
      Packet.unmarshalOptionsLoop
        [70, 0, 0, 24, 0, 0, 0, 0, 64, 6, 255, 255, 1, 2, 3, 4, 1, 2, 3, 4, 130, 0, 0, 0]
        fuel p 20 = Run.outOfFuel := by
  induction fuel with
  | zero =>
    intro p _
    rfl
  | succ f ih =>
    intro p h
    simp only [Packet.unmarshalOptionsLoop, step_zero_length p h]
    exact ih _ h

/-- Claim C21, at a failing input: on the 24-byte buffer with `IHL` 6 whose
option at offset 20 has number 2 and length byte 0, a turn of the options loop
appends an empty option and leaves the pointer at 20 with `optionsNotEmpty`
still true, so `Unmarshal` runs out of every amount of fuel: the loop does not
end. -/
theorem unmarshal_zero_length_option_never_ends :
    (Packet.zero.withFixedFields
        [70, 0, 0, 24, 0, 0, 0, 0, 64, 6, 255, 255, 1, 2, 3, 4, 1, 2, 3, 4, 130, 0, 0, 0]
      ).unmarshalOptionsStep
        [70, 0, 0, 24, 0, 0, 0, 0, 64, 6, 255, 255, 1, 2, 3, 4, 1, 2, 3, 4, 130, 0, 0, 0] 20 =
      Run.ok (Packet.mk ⟨70⟩ 0 24 0 ⟨0⟩ 64 6 65535 testAddr testAddr [] [IPOption.zero],
        20, true) ∧
    ∀ fuel, Packet.Unmarshal fuel Packet.zero
        [70, 0, 0, 24, 0, 0, 0, 0, 64, 6, 255, 255, 1, 2, 3, 4, 1, 2, 3, 4, 130, 0, 0, 0]
      = Run.outOfFuel := by
  refine ⟨rfl, ?_⟩
  intro fuel
  rw [Unmarshal_of_length fuel Packet.zero _ (by decide)]
  have hl := loop_zero_length fuel (Packet.zero.withFixedFields
    [70, 0, 0, 24, 0, 0, 0, 0, 64, 6, 255, 255, 1, 2, 3, 4, 1, 2, 3, 4, 130, 0, 0, 0]) rfl
  have hne : ¬((Packet.zero.withFixedFields
      [70, 0, 0, 24, 0, 0, 0, 0, 64, 6, 255, 255, 1, 2, 3, 4, 1, 2, 3, 4, 130, 0, 0, 0]
    ).VerIHL.IHL * 4 % 256 = ipHeaderLength) := by decide
  simp only [Packet.unmarshalOptions, hne, if_false, hl]
  rfl

end ipv4
